import Mathlib

/-!
# libsonata `population.hpp`: selections, chunked reads, population storage

A shallow embedding of `src/src/population.hpp`.

* Row indices and range bounds are `uint64_t` in the code: `BuildState.step64`
  and `_selectionFromValues64` compute `++range.second` and `*it + 1` modulo
  `2 ^ 64`. `BuildState.step` and `_selectionFromValues` are the same loop over
  the unbounded naturals (the spec's "non-negative row indices"); the two
  agree on every input whose values are below `2 ^ 64 - 1`.
* `std::vector` is `List`, `std::set<std::string>` is `Finset String`.
* A C++ exception is the `error` side of `Except`; a failed `assert` is an
  outcome of its own.
* The HDF5 container (HighFive) is an external collaborator: a file is a tree
  of named links, a dataset is an array with a positional read that may fail.
-/

namespace Sonata

deriving instance DecidableEq for Except

/-! ## Selection -/

/-- The type `Selection::Range`: the half-open interval `[first, second)`, a
`std::pair` of row indices. -/
structure Range where
  first : Nat
  second : Nat
deriving DecidableEq, Repr

/-- The type `Selection`: an ordered sequence of ranges. -/
structure Selection where
  ranges : List Range
deriving DecidableEq, Repr

/-- The indices `first, first+1, ..., second-1` of one range. -/
def Range.indices (r : Range) : List Nat :=
  List.range' r.first (r.second - r.first)

/-- Expansion of a selection: the indices of its ranges, in range order. -/
def Selection.indices (s : Selection) : List Nat :=
  s.ranges.flatMap Range.indices

/-- Modelled from the spec: `Selection::flatSize` (declared in
`bbp/sonata/population.h`, not part of the sources at hand), "sum of
`(last - first)` over all ranges". -/
def Selection.flatSize (s : Selection) : Nat :=
  (s.ranges.map fun r => r.second - r.first).sum

/-- The data-model invariant of a range list: no empty range is stored. -/
def Selection.nonEmptyRanges (s : Selection) : Prop :=
  ∀ r ∈ s.ranges, r.first < r.second

instance (s : Selection) : Decidable s.nonEmptyRanges :=
  inferInstanceAs (Decidable (∀ r ∈ s.ranges, r.first < r.second))

/-- The local variables of `_selectionFromValues`: the ranges pushed so far
and the open range. -/
structure BuildState where
  ranges : List Range
  range : Range
deriving DecidableEq, Repr

/-- The `if (range.first < range.second) ranges.push_back(range);` statement,
as the value of `ranges` after it. -/
def BuildState.pushed (st : BuildState) : List Range :=
  if st.range.first < st.range.second then st.ranges ++ [st.range] else st.ranges

/-- One iteration of the loop of `_selectionFromValues` on the value `x = *it`,
with `++range.second` and `*it + 1` computed over the unbounded naturals:
the step of the code as long as no increment reaches `2 ^ 64`. -/
def BuildState.step (st : BuildState) (x : Nat) : BuildState :=
  if x = st.range.second then
    { ranges := st.ranges, range := { first := st.range.first, second := st.range.second + 1 } }
  else
    { ranges := st.pushed, range := { first := x, second := x + 1 } }

/-- The function `_selectionFromValues(first, last)` on the sequence `values`,
over the unbounded naturals: the loop from the initial open range `{0, 0}`,
then the closing push. It is the result of the code on every input whose
values are below `2 ^ 64 - 1`; the code itself is `_selectionFromValues64`. -/
def _selectionFromValues (values : List Nat) : Selection :=
  { ranges := (values.foldl BuildState.step { ranges := [], range := { first := 0, second := 0 } }).pushed }

/-- Expansion of the ranges that the closing push yields. -/
def BuildState.expansion (st : BuildState) : List Nat :=
  st.pushed.flatMap Range.indices

/-- The invariant of the loop of `_selectionFromValues` on ascending input:
the pushed ranges are non-empty and each ends strictly before every later
one begins, all of them end strictly before the open range begins, and the
open range is not inverted. -/
def BuildState.Separated (st : BuildState) : Prop :=
  (∀ r ∈ st.ranges, r.first < r.second) ∧
  st.ranges.Pairwise (fun a b => a.second < b.first) ∧
  (∀ r ∈ st.ranges, r.second < st.range.first) ∧
  st.range.first ≤ st.range.second

/-! ## Datasets and the chunked reader -/

/-- How a read ends when it does not return values: a failed
`assert (range.first < range.second)`, or an exception of the container's
positional read (selection outside the dataset, failure of the medium). -/
inductive ReadError where
  | assertFailed
  | outOfBounds
  | ioFailure (code : Nat)
deriving DecidableEq, Repr

/-- A one-dimensional `HighFive::DataSet`: the stored rows, and the reads
`(offset, count)` on which the storage medium fails (with which code). -/
structure DataSet (α : Type) where
  data : List α
  fault : Nat → Nat → Option Nat

/-- The rows `data[offset .. offset + count)`. -/
def DataSet.slice {α : Type} (dset : DataSet α) (offset count : Nat) : List α :=
  (dset.data.drop offset).take count

/-- The positional read `dset.select({offset}, {count}).read(...)`: the slice, or an
exception. -/
def DataSet.read {α : Type} (dset : DataSet α) (offset count : Nat) :
    Except ReadError (List α) :=
  if offset + count ≤ dset.data.length then
    match dset.fault offset count with
    | some code => .error (.ioFailure code)
    | none => .ok (dset.slice offset count)
  else .error .outOfBounds

/-- The function `_readChunk<T>(dset, range)`. -/
def _readChunk {α : Type} (dset : DataSet α) (range : Range) : Except ReadError (List α) :=
  if range.first < range.second then
    dset.read range.first (range.second - range.first)
  else .error .assertFailed

/-- The inner loop of the general `_readSelection`: every element of the
chunk is moved to the back of `result`. -/
def emplaceAll {α : Type} (result chunk : List α) : List α :=
  chunk.foldl (fun res x => res ++ [x]) result

/-- The outer loop of the general `_readSelection` over the ranges still to
be read, `result` being the vector filled so far. -/
def readSelectionLoop {α : Type} (dset : DataSet α) :
    List Range → List α → Except ReadError (List α)
  | [], result => .ok result
  | range :: rest, result =>
    match _readChunk dset range with
    | .error e => .error e
    | .ok chunk => readSelectionLoop dset rest (emplaceAll result chunk)

/-- The function `_readSelection<T>(dset, selection)`, the overload for element types
that are not POD. -/
def _readSelection {α : Type} (dset : DataSet α) (selection : Selection) :
    Except ReadError (List α) :=
  match selection.ranges with
  | [range] => _readChunk dset range
  | ranges => readSelectionLoop dset ranges []

/-- The effect of `read(dst)` on the destination vector: the chunk is stored
at the positions `dst, dst+1, ...` of `result`. -/
def writeAt {α : Type} (result : List α) (dst : Nat) (chunk : List α) : List α :=
  result.take dst ++ chunk ++ result.drop (dst + chunk.length)

/-- The loop of the POD `_readSelection` over the ranges still to be read;
`dst` is the write offset into `result`. -/
def readSelectionPodLoop {α : Type} (dset : DataSet α) :
    List Range → List α → Nat → Except ReadError (List α)
  | [], result, _ => .ok result
  | range :: rest, result, dst =>
    if range.first < range.second then
      match dset.read range.first (range.second - range.first) with
      | .error e => .error e
      | .ok chunk =>
        readSelectionPodLoop dset rest (writeAt result dst chunk)
          (dst + (range.second - range.first))
    else .error .assertFailed

/-- The function `_readSelection<T>(dset, selection)`, the overload for POD element
types: the result vector is allocated with `flatSize()` value-initialised
elements and filled in place. -/
def _readSelectionPod {α : Type} [Inhabited α] (dset : DataSet α) (selection : Selection) :
    Except ReadError (List α) :=
  readSelectionPodLoop dset selection.ranges (List.replicate selection.flatSize default) 0

/-- The exception of the first range, in range order, whose positional read
fails; `none` when the read of every range succeeds. -/
def DataSet.firstFailure {α : Type} (dset : DataSet α) : List Range → Option ReadError
  | [] => none
  | r :: rest =>
    match dset.read r.first (r.second - r.first) with
    | .error e => some e
    | .ok _ => dset.firstFailure rest

/-- The rows of the dataset at the ranges of a selection, in range order. -/
def DataSet.gather {α : Type} (dset : DataSet α) (selection : Selection) : List α :=
  selection.ranges.flatMap fun r => dset.slice r.first (r.second - r.first)

/-- Every range of the selection ends within the dataset. -/
def Selection.within {α : Type} (s : Selection) (dset : DataSet α) : Prop :=
  ∀ r ∈ s.ranges, r.second ≤ dset.data.length

/-- The storage medium fails on no range of the selection. -/
def DataSet.faultFree {α : Type} (dset : DataSet α) (s : Selection) : Prop :=
  ∀ r ∈ s.ranges, dset.fault r.first (r.second - r.first) = none

instance {α : Type} (s : Selection) (dset : DataSet α) : Decidable (s.within dset) :=
  inferInstanceAs (Decidable (∀ r ∈ s.ranges, r.second ≤ dset.data.length))

instance {α : Type} (dset : DataSet α) (s : Selection) : Decidable (dset.faultFree s) :=
  inferInstanceAs (Decidable (∀ r ∈ s.ranges, dset.fault r.first (r.second - r.first) = none))

/-! ## The file container -/

/-- An object of an HDF5 file: a dataset, or a group with its named links. -/
inductive H5Object where
  | dataset : H5Object
  | group (links : List (String × H5Object)) : H5Object

/-- The type `HighFive::Group`: a handle on a group, given by the links of the group. -/
structure Group where
  links : List (String × H5Object)

/-- The type `HighFive::File`: an open file, given by its root group. -/
structure File where
  root : Group

/-- What the constructors and `openPopulation` throw: the library's own
`SonataError` with its message, or an exception of the file container
(`HighFive::FileException` on opening, `HighFive::GroupException` on
`getGroup`). -/
inductive Exception where
  | sonataError (what : String)
  | fileException (path : String)
  | groupException (name : String)
deriving DecidableEq, Repr

/-- The files that can be opened, by path. -/
abbrev FileSystem := String → Option File

/-- The constructor `HighFive::File(path)`: opening a file read-only. -/
def File.openFile (fs : FileSystem) (path : String) : Except Exception File :=
  match fs path with
  | some file => .ok file
  | none => .error (.fileException path)

/-- The function `group.listObjectNames()`: the names of the links of the group. -/
def Group.listObjectNames (group : Group) : List String :=
  group.links.map Prod.fst

/-- The function `group.exist(name)`: whether the group has a link of that name. -/
def Group.exist (group : Group) (name : String) : Bool :=
  group.listObjectNames.contains name

/-- The function `group.getGroup(name)`: the link of that name when it is a group. -/
def Group.getGroup (group : Group) (name : String) : Except Exception Group :=
  match group.links.lookup name with
  | some (.group links) => .ok { links := links }
  | _ => .error (.groupException name)

/-- The function `file.getGroup(path)` for the absolute path `/<child>` of a group
directly under the root of the file. -/
def File.getGroup (file : File) (path : String) : Except Exception Group :=
  match file.root.links.find? (fun l => "/" ++ l.1 == path) with
  | some (_, .group links) => .ok { links := links }
  | _ => .error (.groupException path)

/-- The function `_listChildren(group)`: the names are inserted one by one in a
`std::set`. -/
def _listChildren (group : Group) : Finset String :=
  group.listObjectNames.foldl (fun result name => insert name result) ∅

/-! ## Population -/

/-- The type `Population::Impl`: the members of a constructed population. -/
structure Population.Impl where
  name : String
  prefix_ : String
  h5File : File
  h5Root : Group
  attributeNames : Finset String

/-- The loop `while (h5Root.exist(std::to_string(groupID))) ++groupID;` run
for at most `fuel` tests of its condition: the value of `groupID` when the
condition fails, `none` when it has held `fuel` times. -/
def countGroups (h5Root : Group) : Nat → Nat → Option Nat
  | 0, _ => none
  | fuel + 1, groupID =>
    if h5Root.exist (toString groupID) then countGroups h5Root fuel (groupID + 1)
    else some groupID

/-- The number that a string of decimal digits denotes. -/
def decimalValue (digits : List Char) (acc : Nat) : Nat :=
  digits.foldl (fun a c => 10 * a + (c.toNat - 48)) acc

/-! ### The loop of the population constructor ends -/

theorem digitChar_value (k : Nat) (h : k < 10) : (Nat.digitChar k).toNat - 48 = k := by
  interval_cases k <;> rfl

theorem decimalValue_toDigitsCore (fuel n : Nat) (ds : List Char) (h : n < fuel) :
    decimalValue (Nat.toDigitsCore 10 fuel n ds) 0 = decimalValue ds n := by
  induction fuel generalizing n ds with
  | zero => omega
  | succ fuel ih =>
    unfold Nat.toDigitsCore
    simp only
    split
    · rename_i h0
      have hn : n % 10 = n := by omega
      have hd := digitChar_value _ (Nat.mod_lt n (by decide : 0 < 10))
      rw [hn] at hd
      simp only [decimalValue, List.foldl_cons, hd, Nat.mul_zero, Nat.zero_add, hn]
    · rename_i h0
      rw [ih _ _ (by omega)]
      simp only [decimalValue, List.foldl_cons, digitChar_value _ (Nat.mod_lt n (by decide))]
      congr 1
      omega

theorem toString_injective : Function.Injective (fun n : Nat => toString n) := by
  intro a b h
  have h' : Nat.toDigits 10 a = Nat.toDigits 10 b := by
    have := congrArg String.data h
    simpa [toString, Nat.repr, List.asString] using this
  have ha := decimalValue_toDigitsCore (a + 1) a [] (by omega)
  have hb := decimalValue_toDigitsCore (b + 1) b [] (by omega)
  unfold Nat.toDigits at h'
  rw [h'] at ha
  simpa [decimalValue] using ha.symm.trans hb

theorem countGroups_none (h5Root : Group) (fuel groupID : Nat)
    (h : countGroups h5Root fuel groupID = none) :
    ∀ k, groupID ≤ k → k < groupID + fuel → h5Root.exist (toString k) = true := by
  induction fuel generalizing groupID with
  | zero => intro k h1 h2; omega
  | succ fuel ih =>
    intro k h1 h2
    unfold countGroups at h
    split at h
    · rename_i he
      rcases Nat.eq_or_lt_of_le h1 with e | l
      · subst e; exact he
      · exact ih _ h k l (by omega)
    · cases h

/-- The loop ends before its condition has held once per link and once more. -/
theorem countGroups_isSome (h5Root : Group) :
    (countGroups h5Root (h5Root.links.length + 1) 0).isSome = true := by
  rcases hc : countGroups h5Root (h5Root.links.length + 1) 0 with _ | n
  · exfalso
    have hall := countGroups_none h5Root _ _ hc
    have hsub : (List.range (h5Root.links.length + 1)).map (fun n : Nat => toString n)
        ⊆ h5Root.listObjectNames := by
      intro s hs
      obtain ⟨k, hk, rfl⟩ := List.mem_map.1 hs
      have := hall k (Nat.zero_le _) (by simpa using List.mem_range.1 hk)
      simpa [Group.exist] using this
    have hnd : ((List.range (h5Root.links.length + 1)).map (fun n : Nat => toString n)).Nodup :=
      (List.nodup_range _).map toString_injective
    have hle := (hnd.subperm hsub).length_le
    simp [Group.listObjectNames] at hle
  · rfl

/-- The value of `groupID` after the loop of the constructor. -/
def groupCount (h5Root : Group) : Nat :=
  (countGroups h5Root (h5Root.links.length + 1) 0).get (countGroups_isSome h5Root)

/-- The constructor `Population::Impl::Impl(h5FilePath, csvFilePath, name, prefix)`: the
member initialisers in declaration order, then the body. -/
def Population.Impl.create (fs : FileSystem) (h5FilePath _csvFilePath name prefix_ : String) :
    Except Exception Population.Impl := do
  let h5File ← File.openFile fs h5FilePath
  let h5Root ← (← h5File.getGroup ("/" ++ prefix_ ++ "s")).getGroup name
  let attributeNames := _listChildren (← h5Root.getGroup "0")
  if groupCount h5Root ≠ 1 then
    throw (.sonataError "Only single-group populations are supported at the moment")
  pure { name := name, prefix_ := prefix_, h5File := h5File, h5Root := h5Root,
         attributeNames := attributeNames }

/-- The type `Population`: the object that owns its `Impl`. -/
structure Population where
  impl_ : Population.Impl

/-- Modelled from the spec: the constructor `Population(h5FilePath,
csvFilePath, name)` of the population class of one entity kind (defined
outside `population.hpp`), "constructed from (filePath,
secondaryPathPlaceholder, populationName, entityPrefix)": it builds its
`Impl` with the prefix `H5_PREFIX` of the kind. -/
def Population.create (fs : FileSystem) (H5_PREFIX h5FilePath csvFilePath name : String) :
    Except Exception Population := do
  let impl ← Population.Impl.create fs h5FilePath csvFilePath name H5_PREFIX
  pure { impl_ := impl }

/-! ## PopulationStorage -/

/-- The type `PopulationStorage<Population>::Impl`: the members of a constructed
storage. -/
structure PopulationStorage.Impl where
  h5FilePath : String
  csvFilePath : String
  h5File : File
  h5Root : Group

/-- The constructor `PopulationStorage<Population>::Impl::Impl(h5FilePath, csvFilePath)` for
the entity kind whose `Population::H5_PREFIX` is `H5_PREFIX`: the member
initialisers in declaration order, then the body. -/
def PopulationStorage.Impl.create (fs : FileSystem) (H5_PREFIX _h5FilePath _csvFilePath : String) :
    Except Exception PopulationStorage.Impl := do
  let h5File ← File.openFile fs _h5FilePath
  let h5Root ← h5File.getGroup ("/" ++ H5_PREFIX ++ "s")
  if _csvFilePath ≠ "" then
    throw (.sonataError "CSV not supported at the moment")
  pure { h5FilePath := _h5FilePath, csvFilePath := _csvFilePath, h5File := h5File,
         h5Root := h5Root }

/-- The function `PopulationStorage<Population>::populationNames()`. -/
def PopulationStorage.Impl.populationNames (impl_ : PopulationStorage.Impl) : Finset String :=
  impl_.h5Root.listObjectNames.foldl (fun result name => insert name result) ∅

/-- The function `PopulationStorage<Population>::openPopulation(name)`. -/
def PopulationStorage.Impl.openPopulation (fs : FileSystem) (H5_PREFIX : String)
    (impl_ : PopulationStorage.Impl) (name : String) : Except Exception Population :=
  if ¬ impl_.h5Root.exist name then
    .error (.sonataError ("No such population: '" ++ name ++ "'"))
  else Population.create fs H5_PREFIX impl_.h5FilePath impl_.csvFilePath name

/-! ## Fixtures -/

/-- The root group of population `default`: the one partition `0`. -/
def fixtureDefault : Group :=
  { links := [("0", .group [("x", .dataset), ("y", .dataset), ("z", .dataset)])] }

/-- The root group of population `typed`: partition `0` beside the dataset
`node_type_id`. -/
def fixtureTyped : Group :=
  { links := [("0", .group [("x", .dataset), ("y", .dataset)]), ("node_type_id", .dataset)] }

/-- The root group of population `two`: the partitions `0` and `1`. -/
def fixtureTwo : Group :=
  { links := [("0", .group [("x", .dataset)]), ("1", .group [("x", .dataset)])] }

/-- The group `/nodes` of the fixture file. -/
def fixtureNodes : Group :=
  { links := [("default", .group fixtureDefault.links), ("typed", .group fixtureTyped.links),
              ("two", .group fixtureTwo.links)] }

/-- The fixture file `nodes.h5`. -/
def fixtureFile : File :=
  { root := { links := [("nodes", .group fixtureNodes.links)] } }

/-- A file system that holds `nodes.h5` and nothing else. -/
def fixtureFS : FileSystem :=
  fun path => if path = "nodes.h5" then some fixtureFile else none

/-- The root group of population `only_one`: the one partition `1`. -/
def fixtureOnlyOne : Group :=
  { links := [("1", .group [("x", .dataset)])] }

/-- The root group of population `gap`: the partitions `0` and `2`. -/
def fixtureGap : Group :=
  { links := [("0", .group [("x", .dataset)]), ("2", .group [("x", .dataset)])] }

/-- The root group of population `empty`: no child. -/
def fixtureEmpty : Group :=
  { links := [] }

/-- The group `/edges` of the second fixture file. -/
def fixtureEdges : Group :=
  { links := [("only_one", .group fixtureOnlyOne.links), ("gap", .group fixtureGap.links),
              ("empty", .group fixtureEmpty.links)] }

/-- The fixture file `edges.h5`. -/
def fixtureEdgesFile : File :=
  { root := { links := [("edges", .group fixtureEdges.links)] } }

/-- A file system that holds `edges.h5` and nothing else. -/
def fixtureEdgesFS : FileSystem :=
  fun path => if path = "edges.h5" then some fixtureEdgesFile else none

/-! ## Read calls of the general reader -/

/-- A run of a reader with the positional reads `(offset, count)` that it
issued, in the order of the calls. -/
structure Traced (α : Type) where
  calls : List (Nat × Nat)
  outcome : Except ReadError (List α)

/-- The function `_readChunk<T>(dset, range)` with its read call recorded. -/
def _readChunkTraced {α : Type} (dset : DataSet α) (range : Range) : Traced α :=
  if range.first < range.second then
    { calls := [(range.first, range.second - range.first)],
      outcome := dset.read range.first (range.second - range.first) }
  else { calls := [], outcome := .error .assertFailed }

/-- The outer loop of the general `_readSelection` with the read calls
recorded; `calls` are the calls issued so far. -/
def readSelectionLoopTraced {α : Type} (dset : DataSet α) :
    List Range → List α → List (Nat × Nat) → Traced α
  | [], result, calls => { calls := calls, outcome := .ok result }
  | range :: rest, result, calls =>
    match (_readChunkTraced dset range).outcome with
    | .error e => { calls := calls ++ (_readChunkTraced dset range).calls, outcome := .error e }
    | .ok chunk =>
      readSelectionLoopTraced dset rest (emplaceAll result chunk)
        (calls ++ (_readChunkTraced dset range).calls)

/-- The general `_readSelection<T>(dset, selection)` with the read calls
recorded. -/
def _readSelectionTraced {α : Type} (dset : DataSet α) (selection : Selection) : Traced α :=
  match selection.ranges with
  | [range] => _readChunkTraced dset range
  | ranges => readSelectionLoopTraced dset ranges [] []

/-- The read call that a range asks for: its offset and its length. -/
def Range.request (r : Range) : Nat × Nat :=
  (r.first, r.second - r.first)

/-! ## Sixty-four bit indices -/

/-- The number of values of `uint64_t`, the index type when indices and
range bounds are taken as unsigned 64-bit integers. -/
def uint64Size : Nat := 2 ^ 64

/-- One iteration of the loop of `_selectionFromValues` with `++range.second`
and `*it + 1` computed modulo `2 ^ 64`. -/
def BuildState.step64 (st : BuildState) (x : Nat) : BuildState :=
  if x = st.range.second then
    { ranges := st.ranges,
      range := { first := st.range.first, second := (st.range.second + 1) % uint64Size } }
  else
    { ranges := st.pushed, range := { first := x, second := (x + 1) % uint64Size } }

/-- The loop of `_selectionFromValues` over unsigned 64-bit integers, from
the initial open range `{0, 0}`. -/
def buildLoop64 (values : List Nat) : BuildState :=
  values.foldl BuildState.step64 { ranges := [], range := { first := 0, second := 0 } }

/-- The loop of `_selectionFromValues` over the naturals, from the initial
open range `{0, 0}`. -/
def buildLoop (values : List Nat) : BuildState :=
  values.foldl BuildState.step { ranges := [], range := { first := 0, second := 0 } }

/-- The function `_selectionFromValues(first, last)` over unsigned 64-bit
integers, the index type of the code: the loop with wrapping increments,
then the closing push. -/
def _selectionFromValues64 (values : List Nat) : Selection :=
  { ranges := (buildLoop64 values).pushed }

/-! ## Lemmas on `_selectionFromValues` -/

theorem Range.indices_extend (r : Range) (h : r.first ≤ r.second) :
    Range.indices { first := r.first, second := r.second + 1 } = r.indices ++ [r.second] := by
  unfold Range.indices
  simp only
  have e : r.second + 1 - r.first = (r.second - r.first) + 1 := by omega
  rw [e, List.range'_concat]
  congr 2
  omega

theorem Range.indices_of_not_lt (r : Range) (h : ¬ r.first < r.second) : r.indices = [] := by
  unfold Range.indices
  have e : r.second - r.first = 0 := by omega
  rw [e]
  rfl

theorem Range.indices_singleton (x : Nat) :
    Range.indices { first := x, second := x + 1 } = [x] := by
  simp [Range.indices]

theorem BuildState.expansion_eq (st : BuildState) :
    st.expansion = st.ranges.flatMap Range.indices ++ st.range.indices := by
  unfold BuildState.expansion BuildState.pushed
  split
  · simp [List.flatMap_append]
  · rename_i h
    simp [Range.indices_of_not_lt _ h]

theorem BuildState.expansion_step (st : BuildState) (x : Nat)
    (h : st.range.first ≤ st.range.second) :
    (st.step x).expansion = st.expansion ++ [x] := by
  rw [BuildState.expansion_eq, BuildState.expansion_eq]
  unfold BuildState.step
  split
  · rename_i hx
    subst hx
    simp only
    rw [Range.indices_extend _ h, List.append_assoc]
  · simp only
    rw [Range.indices_singleton, ← BuildState.expansion_eq]
    rfl

theorem BuildState.step_le (st : BuildState) (x : Nat)
    (h : st.range.first ≤ st.range.second) :
    (st.step x).range.first ≤ (st.step x).range.second := by
  unfold BuildState.step
  split <;> simp only <;> omega

theorem BuildState.expansion_foldl (xs : List Nat) (st : BuildState)
    (h : st.range.first ≤ st.range.second) :
    (xs.foldl BuildState.step st).expansion = st.expansion ++ xs := by
  induction xs generalizing st with
  | nil => simp
  | cons x xs ih =>
    rw [List.foldl_cons, ih _ (st.step_le x h), st.expansion_step x h]
    simp

/-- Expanding the ranges of `_selectionFromValues S` gives back `S`, whatever
the order of `S`. -/
theorem indices_selectionFromValues (S : List Nat) :
    (_selectionFromValues S).indices = S := by
  have h := BuildState.expansion_foldl S { ranges := [], range := { first := 0, second := 0 } }
    (Nat.le_refl 0)
  simpa [BuildState.expansion, BuildState.pushed, Selection.indices, _selectionFromValues] using h

theorem Range.indices_length (r : Range) : r.indices.length = r.second - r.first := by
  simp [Range.indices]

theorem Selection.length_indices (s : Selection) : s.indices.length = s.flatSize := by
  unfold Selection.indices Selection.flatSize
  induction s.ranges with
  | nil => rfl
  | cons r rs ih => simp [List.flatMap_cons, Range.indices_length, ih]


theorem BuildState.pushed_separated (st : BuildState) (h : st.Separated) :
    (∀ r ∈ st.pushed, r.first < r.second) ∧
    st.pushed.Pairwise (fun a b => a.second < b.first) := by
  obtain ⟨h1, h2, h3, _⟩ := h
  unfold BuildState.pushed
  split
  · rename_i hlt
    refine ⟨?_, ?_⟩
    · intro r hr
      rcases List.mem_append.1 hr with hr | hr
      · exact h1 r hr
      · rw [List.mem_singleton.1 hr]; exact hlt
    · rw [List.pairwise_append]
      refine ⟨h2, List.pairwise_singleton _ _, ?_⟩
      intro a ha b hb
      rw [List.mem_singleton.1 hb]
      exact h3 a ha
  · exact ⟨h1, h2⟩

theorem BuildState.step_separated (st : BuildState) (x : Nat) (h : st.Separated)
    (hx : st.range.second ≤ x) : (st.step x).Separated := by
  have hp := st.pushed_separated h
  obtain ⟨h1, h2, h3, h4⟩ := h
  unfold BuildState.step
  split
  · exact ⟨h1, h2, h3, Nat.le_succ_of_le h4⟩
  · rename_i hne
    have hlt : st.range.second < x := by omega
    refine ⟨hp.1, hp.2, ?_, Nat.le_succ x⟩
    intro r hr
    show r.second < x
    unfold BuildState.pushed at hr
    split at hr
    · rcases List.mem_append.1 hr with hr | hr
      · have := h3 r hr
        omega
      · rw [List.mem_singleton.1 hr]; exact hlt
    · have := h3 r hr
      omega

theorem BuildState.step_second_le (st : BuildState) (x y : Nat) (hxy : x < y) :
    (st.step x).range.second ≤ y := by
  unfold BuildState.step
  split <;> simp only <;> omega

theorem BuildState.foldl_separated (xs : List Nat) (st : BuildState) (h : st.Separated)
    (hasc : xs.Pairwise (· < ·)) (hlow : ∀ x ∈ xs, st.range.second ≤ x) :
    (xs.foldl BuildState.step st).Separated := by
  induction xs generalizing st with
  | nil => exact h
  | cons x xs ih =>
    rw [List.pairwise_cons] at hasc
    have hx := hlow x (List.mem_cons_self _ _)
    rw [List.foldl_cons]
    refine ih _ (st.step_separated x h hx) hasc.2 ?_
    intro y hy
    exact st.step_second_le x y (hasc.1 y hy)

/-- On strictly ascending input the ranges of `_selectionFromValues` are
non-empty and each ends strictly before every later one begins. -/
theorem selectionFromValues_separated (S : List Nat) (hasc : S.Pairwise (· < ·)) :
    (∀ r ∈ (_selectionFromValues S).ranges, r.first < r.second) ∧
    (_selectionFromValues S).ranges.Pairwise (fun a b => a.second < b.first) := by
  have h0 : BuildState.Separated { ranges := [], range := { first := 0, second := 0 } } := by
    refine ⟨?_, List.Pairwise.nil, ?_, Nat.le_refl 0⟩ <;> intro r hr <;> cases hr
  exact BuildState.pushed_separated _
    (BuildState.foldl_separated S _ h0 hasc (fun x _ => Nat.zero_le x))

/-! ## Lemmas on the chunked reader -/

theorem emplaceAll_eq {α : Type} (result chunk : List α) :
    emplaceAll result chunk = result ++ chunk := by
  unfold emplaceAll
  induction chunk generalizing result with
  | nil => simp
  | cons x xs ih => simp [List.foldl_cons, ih]

theorem DataSet.read_ok {α : Type} (dset : DataSet α) (offset count : Nat) (chunk : List α)
    (h : dset.read offset count = .ok chunk) :
    chunk = dset.slice offset count ∧ offset + count ≤ dset.data.length := by
  unfold DataSet.read at h
  split at h
  · rename_i hb
    split at h
    · cases h
    · cases h
      exact ⟨rfl, hb⟩
  · cases h

theorem DataSet.length_slice {α : Type} (dset : DataSet α) (offset count : Nat)
    (h : offset + count ≤ dset.data.length) : (dset.slice offset count).length = count := by
  unfold DataSet.slice
  rw [List.length_take, List.length_drop]
  omega

theorem DataSet.read_of_faultFree {α : Type} (dset : DataSet α) (r : Range)
    (hne : r.first < r.second) (hin : r.second ≤ dset.data.length)
    (hf : dset.fault r.first (r.second - r.first) = none) :
    dset.read r.first (r.second - r.first) = .ok (dset.slice r.first (r.second - r.first)) := by
  unfold DataSet.read
  have hb : r.first + (r.second - r.first) ≤ dset.data.length := by omega
  rw [if_pos hb, hf]

theorem DataSet.firstFailure_eq_none {α : Type} (dset : DataSet α) (rs : List Range) :
    dset.firstFailure rs = none ↔
      ∀ r ∈ rs, ∃ chunk, dset.read r.first (r.second - r.first) = .ok chunk := by
  induction rs with
  | nil => simp [DataSet.firstFailure]
  | cons r rs ih =>
    unfold DataSet.firstFailure
    rcases hr : dset.read r.first (r.second - r.first) with e | chunk
    · simp [hr]
    · simp [hr, ih]

theorem DataSet.firstFailure_append {α : Type} (dset : DataSet α) (pre : List Range)
    (r : Range) (post : List Range) (e : ReadError)
    (hpre : ∀ q ∈ pre, ∃ chunk, dset.read q.first (q.second - q.first) = .ok chunk)
    (hr : dset.read r.first (r.second - r.first) = .error e) :
    dset.firstFailure (pre ++ r :: post) = some e := by
  induction pre with
  | nil => simp [DataSet.firstFailure, hr]
  | cons q pre ih =>
    obtain ⟨chunk, hq⟩ := hpre q (List.mem_cons_self _ _)
    have := ih (fun q' hq' => hpre q' (List.mem_cons_of_mem _ hq'))
    simp [DataSet.firstFailure, hq, this]

theorem DataSet.firstFailure_of_faultFree {α : Type} (dset : DataSet α) (s : Selection)
    (hne : s.nonEmptyRanges) (hin : s.within dset) (hf : dset.faultFree s) :
    dset.firstFailure s.ranges = none := by
  rw [DataSet.firstFailure_eq_none]
  intro r hr
  exact ⟨_, dset.read_of_faultFree r (hne r hr) (hin r hr) (hf r hr)⟩

/-- The outcome that both overloads of `_readSelection` are shown to have on
a selection without empty ranges. -/
theorem readSelectionLoop_eq {α : Type} (dset : DataSet α) (rs : List Range) (result : List α)
    (hne : ∀ r ∈ rs, r.first < r.second) :
    readSelectionLoop dset rs result =
      match dset.firstFailure rs with
      | some e => .error e
      | none => .ok (result ++ rs.flatMap fun r => dset.slice r.first (r.second - r.first)) := by
  induction rs generalizing result with
  | nil => simp [readSelectionLoop, DataSet.firstFailure]
  | cons r rs ih =>
    have hr := hne r (List.mem_cons_self _ _)
    unfold readSelectionLoop DataSet.firstFailure _readChunk
    rw [if_pos hr]
    rcases hread : dset.read r.first (r.second - r.first) with e | chunk
    · rfl
    · simp only
      rw [ih _ (fun q hq => hne q (List.mem_cons_of_mem _ hq)), emplaceAll_eq,
        (dset.read_ok _ _ _ hread).1]
      simp [List.flatMap_cons]

theorem readSelection_eq {α : Type} (dset : DataSet α) (s : Selection) (hne : s.nonEmptyRanges) :
    _readSelection dset s =
      match dset.firstFailure s.ranges with
      | some e => .error e
      | none => .ok (dset.gather s) := by
  have hloop := readSelectionLoop_eq dset s.ranges [] hne
  unfold _readSelection DataSet.gather
  split
  · rename_i range hrange
    have hr : range.first < range.second :=
      hne range (by rw [hrange]; exact List.mem_singleton.2 rfl)
    rw [hrange]
    unfold _readChunk DataSet.firstFailure
    rw [if_pos hr]
    rcases hread : dset.read range.first (range.second - range.first) with e | chunk
    · rfl
    · simp [DataSet.firstFailure, (dset.read_ok _ _ _ hread).1]
  · simpa using hloop

theorem readSelectionPodLoop_eq {α : Type} (dset : DataSet α) (rs : List Range)
    (result : List α) (dst : Nat) (hne : ∀ r ∈ rs, r.first < r.second)
    (hlen : result.length = dst + (rs.map fun r => r.second - r.first).sum) :
    readSelectionPodLoop dset rs result dst =
      match dset.firstFailure rs with
      | some e => .error e
      | none => .ok (result.take dst ++
          rs.flatMap fun r => dset.slice r.first (r.second - r.first)) := by
  induction rs generalizing result dst with
  | nil =>
    have : result.length = dst := by simpa using hlen
    simp [readSelectionPodLoop, DataSet.firstFailure, ← this]
  | cons r rs ih =>
    have hr := hne r (List.mem_cons_self _ _)
    unfold readSelectionPodLoop DataSet.firstFailure
    rw [if_pos hr]
    rcases hread : dset.read r.first (r.second - r.first) with e | chunk
    · rfl
    · obtain ⟨hchunk, hb⟩ := dset.read_ok _ _ _ hread
      have hcl : chunk.length = r.second - r.first := by
        rw [hchunk]; exact dset.length_slice _ _ hb
      simp only [List.map_cons, List.sum_cons] at hlen
      have hw : (writeAt result dst chunk).length
          = dst + (r.second - r.first) + (rs.map fun r => r.second - r.first).sum := by
        simp only [writeAt, List.length_append, List.length_take, List.length_drop, hcl]
        omega
      have ht : (writeAt result dst chunk).take (dst + (r.second - r.first))
          = result.take dst ++ chunk := by
        have hd : (result.take dst ++ chunk).length = dst + (r.second - r.first) := by
          simp only [List.length_append, List.length_take, hcl]
          omega
        unfold writeAt
        rw [← hd, List.take_left]
      simp only
      rw [ih _ _ (fun q hq => hne q (List.mem_cons_of_mem _ hq)) hw, ht, hchunk]
      simp [List.flatMap_cons]

theorem readSelectionPod_eq {α : Type} [Inhabited α] (dset : DataSet α) (s : Selection)
    (hne : s.nonEmptyRanges) :
    _readSelectionPod dset s =
      match dset.firstFailure s.ranges with
      | some e => .error e
      | none => .ok (dset.gather s) := by
  have h := readSelectionPodLoop_eq dset s.ranges (List.replicate s.flatSize default) 0 hne
    (by simp [Selection.flatSize])
  simpa [_readSelectionPod, DataSet.gather] using h

theorem DataSet.slice_map_some {α : Type} (dset : DataSet α) (offset count : Nat)
    (h : offset + count ≤ dset.data.length) :
    (dset.slice offset count).map some
      = (List.range' offset count).map fun i => dset.data[i]? := by
  unfold DataSet.slice
  induction count generalizing offset with
  | zero => simp
  | succ n ih =>
    have hlt : offset < dset.data.length := by omega
    rw [List.drop_eq_getElem_cons hlt, List.take_succ_cons, List.range'_succ, List.map_cons,
      List.map_cons, ih (offset + 1) (by omega), List.getElem?_eq_getElem hlt]

theorem DataSet.flatMap_slice_map_some {α : Type} (dset : DataSet α) (rs : List Range)
    (hin : ∀ r ∈ rs, r.second ≤ dset.data.length) :
    (rs.flatMap fun r => dset.slice r.first (r.second - r.first)).map some
      = (rs.flatMap Range.indices).map fun i => dset.data[i]? := by
  induction rs with
  | nil => rfl
  | cons r rs ih =>
    have hr := hin r (List.mem_cons_self _ _)
    rw [List.flatMap_cons, List.flatMap_cons, List.map_append, List.map_append,
      ih (fun q hq => hin q (List.mem_cons_of_mem _ hq))]
    congr 1
    by_cases hlt : r.first < r.second
    · exact dset.slice_map_some _ _ (by omega)
    · have e : r.second - r.first = 0 := by omega
      simp [Range.indices, DataSet.slice, e]

theorem DataSet.gather_map_some {α : Type} (dset : DataSet α) (s : Selection)
    (hin : s.within dset) :
    (dset.gather s).map some = s.indices.map fun i => dset.data[i]? :=
  dset.flatMap_slice_map_some s.ranges hin

theorem DataSet.length_gather {α : Type} (dset : DataSet α) (s : Selection)
    (hin : s.within dset) : (dset.gather s).length = s.flatSize := by
  have h := congrArg List.length (dset.gather_map_some s hin)
  rw [List.length_map, List.length_map, s.length_indices] at h
  exact h

/-- A selection whose expansion stays below `n` and that has no empty range
ends below `n`. -/
theorem Selection.second_le_of_indices_lt (s : Selection) (n : Nat) (hne : s.nonEmptyRanges)
    (h : ∀ i ∈ s.indices, i < n) : ∀ r ∈ s.ranges, r.second ≤ n := by
  intro r hr
  have hlt := hne r hr
  have hmem : r.second - 1 ∈ s.indices := by
    unfold Selection.indices
    rw [List.mem_flatMap]
    refine ⟨r, hr, ?_⟩
    unfold Range.indices
    rw [List.mem_range'_1]
    omega
  have := h _ hmem
  omega

theorem readSelectionLoop_ok {α : Type} (dset : DataSet α) (rs : List Range)
    (result v : List α) (h : readSelectionLoop dset rs result = .ok v) :
    dset.firstFailure rs = none := by
  induction rs generalizing result with
  | nil => rfl
  | cons r rs ih =>
    unfold readSelectionLoop _readChunk at h
    unfold DataSet.firstFailure
    by_cases hlt : r.first < r.second
    · rw [if_pos hlt] at h
      rcases hread : dset.read r.first (r.second - r.first) with e | chunk
      · rw [hread] at h; cases h
      · rw [hread] at h
        exact ih _ h
    · rw [if_neg hlt] at h; cases h

theorem readSelection_ok {α : Type} (dset : DataSet α) (s : Selection) (v : List α)
    (h : _readSelection dset s = .ok v) : dset.firstFailure s.ranges = none := by
  unfold _readSelection at h
  split at h
  · rename_i range hrange
    rw [hrange]
    unfold _readChunk at h
    unfold DataSet.firstFailure
    by_cases hlt : range.first < range.second
    · rw [if_pos hlt] at h
      rw [h]; rfl
    · rw [if_neg hlt] at h; cases h
  · exact readSelectionLoop_ok dset _ _ _ h

theorem readSelectionPodLoop_ok {α : Type} (dset : DataSet α) (rs : List Range)
    (result v : List α) (dst : Nat) (h : readSelectionPodLoop dset rs result dst = .ok v) :
    dset.firstFailure rs = none := by
  induction rs generalizing result dst with
  | nil => rfl
  | cons r rs ih =>
    unfold readSelectionPodLoop at h
    unfold DataSet.firstFailure
    by_cases hlt : r.first < r.second
    · rw [if_pos hlt] at h
      rcases hread : dset.read r.first (r.second - r.first) with e | chunk
      · rw [hread] at h; cases h
      · rw [hread] at h
        exact ih _ _ h
    · rw [if_neg hlt] at h; cases h

/-! ## Lemmas on populations and storages -/

theorem foldl_insert_eq (names : List String) (acc : Finset String) :
    names.foldl (fun result name => insert name result) acc = acc ∪ names.toFinset := by
  induction names generalizing acc with
  | nil => simp
  | cons n ns ih =>
    rw [List.foldl_cons, ih, List.toFinset_cons]
    ext x
    simp only [Finset.mem_union, Finset.mem_insert]
    tauto

theorem listChildren_eq (group : Group) :
    _listChildren group = group.listObjectNames.toFinset := by
  unfold _listChildren
  rw [foldl_insert_eq]
  simp

theorem mem_listChildren (group : Group) (name : String) :
    name ∈ _listChildren group ↔ name ∈ group.listObjectNames := by
  rw [listChildren_eq, List.mem_toFinset]

theorem Group.exist_iff (group : Group) (name : String) :
    group.exist name = true ↔ name ∈ group.listObjectNames := by
  simp [Group.exist]

theorem countGroups_some (h5Root : Group) (fuel groupID n : Nat)
    (h : countGroups h5Root fuel groupID = some n) :
    groupID ≤ n ∧ h5Root.exist (toString n) = false ∧
      ∀ k, groupID ≤ k → k < n → h5Root.exist (toString k) = true := by
  induction fuel generalizing groupID with
  | zero => cases h
  | succ fuel ih =>
    unfold countGroups at h
    by_cases he : h5Root.exist (toString groupID) = true
    · rw [if_pos he] at h
      obtain ⟨h1, h2, h3⟩ := ih _ h
      refine ⟨by omega, h2, ?_⟩
      intro k hk1 hk2
      rcases Nat.eq_or_lt_of_le hk1 with e | l
      · rw [← e]; exact he
      · exact h3 k l hk2
    · rw [if_neg he] at h
      cases h
      refine ⟨Nat.le_refl _, by simpa using he, ?_⟩
      intro k hk1 hk2
      omega

/-- The value of `groupID` after the loop is the least number whose decimal
name is not a link of the group. -/
theorem groupCount_spec (h5Root : Group) :
    h5Root.exist (toString (groupCount h5Root)) = false ∧
      ∀ k, k < groupCount h5Root → h5Root.exist (toString k) = true := by
  have h : countGroups h5Root (h5Root.links.length + 1) 0 = some (groupCount h5Root) := by
    unfold groupCount
    simp
  obtain ⟨_, h2, h3⟩ := countGroups_some _ _ _ _ h
  exact ⟨h2, fun k hk => h3 k (Nat.zero_le k) hk⟩

theorem groupCount_eq_one_iff (h5Root : Group) :
    groupCount h5Root = 1 ↔ h5Root.exist "0" = true ∧ h5Root.exist "1" = false := by
  obtain ⟨h1, h2⟩ := groupCount_spec h5Root
  constructor
  · intro e
    rw [e] at h1 h2
    exact ⟨h2 0 (by decide), h1⟩
  · rintro ⟨e0, e1⟩
    have hne0 : groupCount h5Root ≠ 0 := by
      intro e
      rw [e] at h1
      have : h5Root.exist "0" = false := h1
      rw [e0] at this
      cases this
    have hle : ¬ 1 < groupCount h5Root := by
      intro hlt
      have : h5Root.exist "1" = true := h2 1 hlt
      rw [e1] at this
      cases this
    omega

theorem Group.exist_of_getGroup (group : Group) (name : String) (g : Group)
    (h : group.getGroup name = .ok g) : group.exist name = true := by
  unfold Group.getGroup at h
  rw [Group.exist_iff]
  unfold Group.listObjectNames
  split at h
  · rename_i links hl
    obtain ⟨l₁, l₂, hl, _⟩ := List.lookup_eq_some_iff.1 hl
    rw [hl]
    simp
  · cases h

theorem Population.Impl.create_eq (fs : FileSystem) (h5FilePath csvFilePath name pfx : String)
    (h5File : File) (kindRoot h5Root : Group)
    (hfile : File.openFile fs h5FilePath = .ok h5File)
    (hkind : h5File.getGroup ("/" ++ pfx ++ "s") = .ok kindRoot)
    (hroot : kindRoot.getGroup name = .ok h5Root) :
    Population.Impl.create fs h5FilePath csvFilePath name pfx =
      match h5Root.getGroup "0" with
      | .error e => .error e
      | .ok group0 =>
        if h5Root.exist "1" = true then
          .error (.sonataError "Only single-group populations are supported at the moment")
        else
          .ok { name := name, prefix_ := pfx, h5File := h5File, h5Root := h5Root,
                attributeNames := group0.listObjectNames.toFinset } := by
  unfold Population.Impl.create
  simp only [hfile, hkind, hroot, bind, Except.bind]
  rcases h0 : h5Root.getGroup "0" with e | group0
  · rfl
  · have hex := h5Root.exist_of_getGroup "0" group0 h0
    have hiff := groupCount_eq_one_iff h5Root
    by_cases h1 : h5Root.exist "1" = true
    · have hne : groupCount h5Root ≠ 1 := by
        intro e
        have := (hiff.1 e).2
        rw [h1] at this
        cases this
      simp [hne, h1, throw, throwThe, MonadExceptOf.throw]
    · have he : groupCount h5Root = 1 := hiff.2 ⟨hex, by simpa using h1⟩
      simp [he, h1, listChildren_eq, pure, Except.pure]

theorem File.openFile_error (fs : FileSystem) (path : String) (e : Exception)
    (h : File.openFile fs path = .error e) : e = .fileException path := by
  unfold File.openFile at h
  split at h
  · cases h
  · cases h; rfl

theorem File.getGroup_groupException (file : File) (path : String) (e : Exception)
    (h : file.getGroup path = .error e) : e = .groupException path := by
  unfold File.getGroup at h
  split at h
  · cases h
  · cases h; rfl

theorem Group.getGroup_error (group : Group) (name : String) (e : Exception)
    (h : group.getGroup name = .error e) : e = .groupException name := by
  unfold Group.getGroup at h
  split at h
  · cases h
  · cases h; rfl

/-- The only `SonataError` of the population constructor is the one of its
body. -/
theorem Population.Impl.create_sonataError (fs : FileSystem)
    (h5FilePath csvFilePath name pfx what : String)
    (h : Population.Impl.create fs h5FilePath csvFilePath name pfx = .error (.sonataError what)) :
    what = "Only single-group populations are supported at the moment" := by
  rcases hf : File.openFile fs h5FilePath with e | h5File
  · have he := File.openFile_error _ _ _ hf
    simp only [Population.Impl.create, hf, bind, Except.bind] at h
    rw [he] at h
    cases h
  · rcases hk : h5File.getGroup ("/" ++ pfx ++ "s") with e | kindRoot
    · have he := File.getGroup_groupException _ _ _ hk
      simp only [Population.Impl.create, hf, hk, bind, Except.bind] at h
      rw [he] at h
      cases h
    · rcases hr : kindRoot.getGroup name with e | h5Root
      · have he := Group.getGroup_error _ _ _ hr
        simp only [Population.Impl.create, hf, hk, hr, bind, Except.bind] at h
        rw [he] at h
        cases h
      · rw [Population.Impl.create_eq fs h5FilePath csvFilePath name pfx _ _ _ hf hk hr] at h
        rcases h0 : h5Root.getGroup "0" with e | group0
        · have he := Group.getGroup_error _ _ _ h0
          rw [h0, he] at h
          cases h
        · rw [h0] at h
          simp only at h
          split at h
          · cases h; rfl
          · cases h

theorem notFound_ne_singleGroup (name : String) :
    "No such population: '" ++ name ++ "'"
      ≠ "Only single-group populations are supported at the moment" := by
  intro h
  have hd := congrArg (fun s : String => s.data.head?) h
  simp [String.data_append] at hd

theorem PopulationStorage.Impl.create_ok (fs : FileSystem) (pfx h5FilePath csvFilePath : String)
    (st : PopulationStorage.Impl)
    (h : PopulationStorage.Impl.create fs pfx h5FilePath csvFilePath = .ok st) :
    st.h5FilePath = h5FilePath ∧ st.csvFilePath = csvFilePath ∧ csvFilePath = "" ∧
      File.openFile fs h5FilePath = .ok st.h5File ∧
      st.h5File.getGroup ("/" ++ pfx ++ "s") = .ok st.h5Root := by
  unfold PopulationStorage.Impl.create at h
  rcases hf : File.openFile fs h5FilePath with e | h5File
  · rw [hf] at h; cases h
  · rcases hg : h5File.getGroup ("/" ++ pfx ++ "s") with e | h5Root
    · simp only [hf, hg, bind, Except.bind] at h
      cases h
    · simp only [hf, hg, bind, Except.bind] at h
      by_cases hc : csvFilePath = ""
      · simp [hc, pure, Except.pure] at h
        subst h
        exact ⟨rfl, hc.symm, hc, rfl, hg⟩
      · simp [hc, throw, throwThe, MonadExceptOf.throw] at h

/-! ## Further lemmas on `_selectionFromValues` -/

theorem BuildState.pushed_nonEmpty (st : BuildState) (h : ∀ r ∈ st.ranges, r.first < r.second) :
    ∀ r ∈ st.pushed, r.first < r.second := by
  unfold BuildState.pushed
  split
  · rename_i hlt
    intro r hr
    rcases List.mem_append.1 hr with hr | hr
    · exact h r hr
    · rw [List.mem_singleton.1 hr]; exact hlt
  · exact h

theorem BuildState.step_nonEmpty (st : BuildState) (x : Nat)
    (h : ∀ r ∈ st.ranges, r.first < r.second) : ∀ r ∈ (st.step x).ranges, r.first < r.second := by
  unfold BuildState.step
  split
  · exact h
  · exact st.pushed_nonEmpty h

theorem BuildState.step64_nonEmpty (st : BuildState) (x : Nat)
    (h : ∀ r ∈ st.ranges, r.first < r.second) :
    ∀ r ∈ (st.step64 x).ranges, r.first < r.second := by
  unfold BuildState.step64
  split
  · exact h
  · exact st.pushed_nonEmpty h

theorem BuildState.foldl_nonEmpty (xs : List Nat) (st : BuildState)
    (h : ∀ r ∈ st.ranges, r.first < r.second) :
    ∀ r ∈ (xs.foldl BuildState.step st).ranges, r.first < r.second := by
  induction xs generalizing st with
  | nil => exact h
  | cons x xs ih => exact ih _ (st.step_nonEmpty x h)

theorem BuildState.foldl64_nonEmpty (xs : List Nat) (st : BuildState)
    (h : ∀ r ∈ st.ranges, r.first < r.second) :
    ∀ r ∈ (xs.foldl BuildState.step64 st).ranges, r.first < r.second := by
  induction xs generalizing st with
  | nil => exact h
  | cons x xs ih => exact ih _ (st.step64_nonEmpty x h)

/-- Whatever the input, no range of `_selectionFromValues` is empty. -/
theorem selectionFromValues_nonEmpty (S : List Nat) : (_selectionFromValues S).nonEmptyRanges :=
  BuildState.pushed_nonEmpty _ (BuildState.foldl_nonEmpty S _ (fun _ hr => nomatch hr))

theorem selectionFromValues64_nonEmpty (S : List Nat) :
    (_selectionFromValues64 S).nonEmptyRanges :=
  BuildState.pushed_nonEmpty _ (BuildState.foldl64_nonEmpty S _ (fun _ hr => nomatch hr))

/-- A run of consecutive values that starts at the end of the open range
extends the open range and pushes nothing. -/
theorem BuildState.foldl_consecutive (n : Nat) (rs : List Range) (f l : Nat) :
    (List.range' l n).foldl BuildState.step { ranges := rs, range := { first := f, second := l } }
      = { ranges := rs, range := { first := f, second := l + n } } := by
  induction n generalizing l with
  | zero => rfl
  | succ n ih =>
    rw [List.range'_succ, List.foldl_cons]
    have hstep : BuildState.step { ranges := rs, range := { first := f, second := l } } l
        = { ranges := rs, range := { first := f, second := l + 1 } } := by
      simp [BuildState.step]
    rw [hstep, ih (l + 1)]
    congr 2
    omega

theorem selectionFromValues_consecutive (a k : Nat) :
    (_selectionFromValues (List.range' a (k + 1))).ranges
      = [{ first := a, second := a + (k + 1) }] := by
  unfold _selectionFromValues
  rw [List.range'_succ, List.foldl_cons]
  have hstep : BuildState.step { ranges := [], range := { first := 0, second := 0 } } a
      = { ranges := [], range := { first := a, second := a + 1 } } := by
    unfold BuildState.step BuildState.pushed
    by_cases ha : a = 0
    · subst ha; simp
    · simp [ha]
  rw [hstep, BuildState.foldl_consecutive]
  unfold BuildState.pushed
  have hlt : a < a + 1 + k := by omega
  simp only [hlt, if_true, List.nil_append]
  congr 2
  omega

theorem Selection.mem_indices (s : Selection) (i : Nat) :
    i ∈ s.indices ↔ ∃ r ∈ s.ranges, r.first ≤ i ∧ i < r.second := by
  unfold Selection.indices Range.indices
  rw [List.mem_flatMap]
  constructor
  · rintro ⟨r, hr, hi⟩
    rw [List.mem_range'_1] at hi
    exact ⟨r, hr, hi.1, by omega⟩
  · rintro ⟨r, hr, h1, h2⟩
    refine ⟨r, hr, ?_⟩
    rw [List.mem_range'_1]
    omega

/-- Counting: when every element of `B` is matched with an element of `R`
and no element of `R` is matched with two elements of `B`, `B` is no longer
than `R`. -/
theorem length_le_of_matching {β ρ : Type} [DecidableEq ρ] (P : β → ρ → Prop) (B : List β)
    (R : List ρ) (hex : ∀ b ∈ B, ∃ r ∈ R, P b r)
    (hinj : B.Pairwise fun b b' => ∀ r, P b r → P b' r → False) : B.length ≤ R.length := by
  induction B generalizing R with
  | nil => exact Nat.zero_le _
  | cons b B ih =>
    obtain ⟨r, hr, hbr⟩ := hex b (List.mem_cons_self _ _)
    rw [List.pairwise_cons] at hinj
    have hrest : ∀ b' ∈ B, ∃ r' ∈ R.erase r, P b' r' := by
      intro b' hb'
      obtain ⟨r', hr', hbr'⟩ := hex b' (List.mem_cons_of_mem _ hb')
      have hne : r' ≠ r := by
        intro e
        rw [e] at hbr'
        exact hinj.1 b' hb' r hbr hbr'
      exact ⟨r', (List.mem_erase_of_ne hne).2 hr', hbr'⟩
    have hlen := ih (R.erase r) hrest hinj.2
    rw [List.length_erase_of_mem hr] at hlen
    have hpos : 0 < R.length := List.length_pos_of_mem hr
    simp only [List.length_cons]
    omega

theorem length_le_sum_sizes (L : List Range) (h : ∀ r ∈ L, r.first < r.second) :
    L.length ≤ (L.map fun r => r.second - r.first).sum := by
  induction L with
  | nil => exact Nat.le_refl _
  | cons r L ih =>
    have hr := h r (List.mem_cons_self _ _)
    have := ih (fun q hq => h q (List.mem_cons_of_mem _ hq))
    simp only [List.length_cons, List.map_cons, List.sum_cons]
    omega

/-- In a list of separated non-empty ranges, the end of a range lies in no
range of the list. -/
theorem second_not_covered (B : List Range) (hne : ∀ r ∈ B, r.first < r.second)
    (hsep : B.Pairwise fun a b => a.second < b.first) (b : Range) (hb : b ∈ B) :
    ¬ ∃ c ∈ B, c.first ≤ b.second ∧ b.second < c.second := by
  rintro ⟨c, hc, h1, h2⟩
  have hsym : B.Pairwise fun a b => a.second < b.first ∨ b.second < a.first :=
    hsep.imp fun h => Or.inl h
  by_cases e : c = b
  · rw [e] at h2
    omega
  · have hb' := hne b hb
    have hc' := hne c hc
    rcases hsym.forall (fun _ _ h => h.symm) hc hb e with h | h
    · omega
    · omega

theorem selectionFromValues_length_le (S : List Nat) (hasc : S.Pairwise (· < ·))
    (R : List Range) (hcover : ∀ i, i ∈ Selection.indices { ranges := R } ↔ i ∈ S) :
    (_selectionFromValues S).ranges.length ≤ R.length := by
  obtain ⟨hne, hsep⟩ := selectionFromValues_separated S hasc
  have hidx := indices_selectionFromValues S
  have hmemS : ∀ i, i ∈ S ↔ ∃ c ∈ (_selectionFromValues S).ranges, c.first ≤ i ∧ i < c.second := by
    intro i
    rw [← Selection.mem_indices, hidx]
  have hmemR : ∀ i, i ∈ S ↔ ∃ r ∈ R, r.first ≤ i ∧ i < r.second := by
    intro i
    rw [← hcover i, Selection.mem_indices]
  refine length_le_of_matching
    (fun (b : Range) (r : Range) => r ∈ R ∧ r.first ≤ b.first ∧ b.first < r.second) _ R ?_ ?_
  · intro b hb
    have hS : b.first ∈ S := (hmemS b.first).2 ⟨b, hb, Nat.le_refl _, hne b hb⟩
    obtain ⟨r, hr, h1, h2⟩ := (hmemR b.first).1 hS
    exact ⟨r, hr, hr, h1, h2⟩
  · refine List.Pairwise.imp_of_mem ?_ hsep
    intro a b ha hb hab r hra hrb
    obtain ⟨hr, ha1, _⟩ := hra
    obtain ⟨_, _, hb2⟩ := hrb
    have ha' := hne a ha
    have hS : a.second ∈ S := (hmemR a.second).2 ⟨r, hr, by omega, by omega⟩
    exact second_not_covered _ hne hsep a ha ((hmemS a.second).1 hS)

theorem BuildState.step64_eq_step (st : BuildState) (x : Nat) (hx : x < uint64Size - 1) :
    st.step64 x = st.step x := by
  unfold BuildState.step64 BuildState.step
  have hpos : 0 < uint64Size := by decide
  split
  · rename_i he
    have h : (st.range.second + 1) % uint64Size = st.range.second + 1 :=
      Nat.mod_eq_of_lt (by omega)
    rw [h]
  · have h : (x + 1) % uint64Size = x + 1 := Nat.mod_eq_of_lt (by omega)
    rw [h]

theorem BuildState.foldl_step64_eq (xs : List Nat) (st : BuildState)
    (hlt : ∀ x ∈ xs, x < uint64Size - 1) :
    xs.foldl BuildState.step64 st = xs.foldl BuildState.step st := by
  induction xs generalizing st with
  | nil => rfl
  | cons x xs ih =>
    rw [List.foldl_cons, List.foldl_cons, st.step64_eq_step x (hlt x (List.mem_cons_self _ _))]
    exact ih _ (fun y hy => hlt y (List.mem_cons_of_mem _ hy))

/-- Below the top index the code and the loop over the naturals build the
same selection. -/
theorem selectionFromValues64_eq (S : List Nat) (hlt : ∀ s ∈ S, s < uint64Size - 1) :
    _selectionFromValues64 S = _selectionFromValues S := by
  unfold _selectionFromValues64 _selectionFromValues buildLoop64
  rw [BuildState.foldl_step64_eq S _ hlt]

theorem BuildState.pushed_step64_prefix (st : BuildState) (x : Nat) (hx : x = uint64Size - 1) :
    (st.step64 x).pushed <+: (st.step x).pushed := by
  have hwrap : (x + 1) % uint64Size = 0 := by rw [hx]; decide
  unfold BuildState.step64 BuildState.step
  split
  · rename_i he
    rw [← he, hwrap]
    unfold BuildState.pushed
    simp only [Nat.not_lt_zero, if_false]
    split
    · exact List.prefix_append _ _
    · exact List.prefix_refl _
  · rw [hwrap]
    have h1 : BuildState.pushed { ranges := st.pushed, range := { first := x, second := 0 } }
        = st.pushed := by
      simp [BuildState.pushed]
    have h2 : BuildState.pushed { ranges := st.pushed, range := { first := x, second := x + 1 } }
        = st.pushed ++ [{ first := x, second := x + 1 }] := by
      simp [BuildState.pushed]
    rw [h1, h2]
    exact List.prefix_append _ _

/-- On strictly ascending 64-bit input the ranges that the code builds are an
initial part of the ranges built over the naturals: only a last value
`2 ^ 64 - 1` makes a difference, and it costs the last range. -/
theorem selectionFromValues64_prefix (S : List Nat) (hasc : S.Pairwise (· < ·))
    (hlt : ∀ s ∈ S, s < uint64Size) :
    (_selectionFromValues64 S).ranges <+: (_selectionFromValues S).ranges := by
  rcases List.eq_nil_or_concat S with rfl | ⟨S', x, rfl⟩
  · exact List.prefix_refl _
  · simp only [List.concat_eq_append] at hasc hlt ⊢
    rw [List.pairwise_append] at hasc
    have hx : x < uint64Size := hlt x (by simp)
    have hS' : ∀ s ∈ S', s < uint64Size - 1 := by
      intro s hs
      have := hasc.2.2 s hs x (List.mem_singleton.2 rfl)
      omega
    by_cases htop : x = uint64Size - 1
    · unfold _selectionFromValues64 _selectionFromValues buildLoop64
      simp only [List.foldl_append, List.foldl_cons, List.foldl_nil]
      rw [BuildState.foldl_step64_eq S' _ hS']
      exact BuildState.pushed_step64_prefix _ x htop
    · have hall : ∀ s ∈ S' ++ [x], s < uint64Size - 1 := by
        intro s hs
        rcases List.mem_append.1 hs with h | h
        · exact hS' s h
        · rw [List.mem_singleton.1 h]
          omega
      have heq := selectionFromValues64_eq (S' ++ [x]) hall
      exact heq ▸ List.prefix_refl _

/-! ## Further lemmas on the chunked reader -/

theorem DataSet.read_ne_assertFailed {α : Type} (dset : DataSet α) (offset count : Nat) :
    dset.read offset count ≠ .error .assertFailed := by
  unfold DataSet.read
  split
  · split
    · intro h; cases h
    · intro h; cases h
  · intro h; cases h

theorem DataSet.firstFailure_ne_assertFailed {α : Type} (dset : DataSet α) (rs : List Range) :
    dset.firstFailure rs ≠ some .assertFailed := by
  induction rs with
  | nil => intro h; cases h
  | cons r rs ih =>
    unfold DataSet.firstFailure
    rcases hread : dset.read r.first (r.second - r.first) with e | chunk
    · intro h
      injection h with h
      rw [h] at hread
      exact dset.read_ne_assertFailed _ _ hread
    · exact ih

theorem outcome_ne_assertFailed {α : Type} (dset : DataSet α) (rs : List Range) (v : List α) :
    (match dset.firstFailure rs with
      | some e => (Except.error e : Except ReadError (List α))
      | none => .ok v) ≠ .error .assertFailed := by
  rcases hff : dset.firstFailure rs with _ | e
  · intro h; cases h
  · intro h
    injection h with h
    rw [h] at hff
    exact dset.firstFailure_ne_assertFailed rs hff

theorem readSelectionLoop_ok_nonEmpty {α : Type} (dset : DataSet α) (rs : List Range)
    (result v : List α) (h : readSelectionLoop dset rs result = .ok v) :
    ∀ r ∈ rs, r.first < r.second := by
  induction rs generalizing result with
  | nil => intro r hr; cases hr
  | cons r rs ih =>
    unfold readSelectionLoop _readChunk at h
    by_cases hlt : r.first < r.second
    · rw [if_pos hlt] at h
      rcases hread : dset.read r.first (r.second - r.first) with e | chunk
      · rw [hread] at h; cases h
      · rw [hread] at h
        intro q hq
        rcases List.mem_cons.1 hq with e | hq
        · rw [e]; exact hlt
        · exact ih _ h q hq
    · rw [if_neg hlt] at h; cases h

theorem readSelection_ok_nonEmpty {α : Type} (dset : DataSet α) (s : Selection) (v : List α)
    (h : _readSelection dset s = .ok v) : s.nonEmptyRanges := by
  unfold _readSelection at h
  unfold Selection.nonEmptyRanges
  split at h
  · rename_i range hrange
    rw [hrange]
    unfold _readChunk at h
    by_cases hlt : range.first < range.second
    · intro r hr
      rw [List.mem_singleton.1 hr]
      exact hlt
    · rw [if_neg hlt] at h; cases h
  · exact readSelectionLoop_ok_nonEmpty dset _ _ _ h

theorem readChunkTraced_outcome {α : Type} (dset : DataSet α) (r : Range) :
    (_readChunkTraced dset r).outcome = _readChunk dset r := by
  unfold _readChunkTraced _readChunk
  split <;> rfl

theorem readSelectionLoopTraced_outcome {α : Type} (dset : DataSet α) (rs : List Range)
    (result : List α) (calls : List (Nat × Nat)) :
    (readSelectionLoopTraced dset rs result calls).outcome = readSelectionLoop dset rs result := by
  induction rs generalizing result calls with
  | nil => rfl
  | cons r rs ih =>
    unfold readSelectionLoopTraced readSelectionLoop
    rw [readChunkTraced_outcome]
    rcases _readChunk dset r with e | chunk
    · rfl
    · exact ih _ _

theorem readSelectionLoopTraced_calls_prefix {α : Type} (dset : DataSet α) (rs : List Range)
    (result : List α) (calls : List (Nat × Nat)) :
    ∃ t, (readSelectionLoopTraced dset rs result calls).calls = calls ++ t ∧
      t <+: rs.map Range.request := by
  induction rs generalizing result calls with
  | nil => exact ⟨[], by simp [readSelectionLoopTraced], List.nil_prefix⟩
  | cons r rs ih =>
    unfold readSelectionLoopTraced
    by_cases hlt : r.first < r.second
    · have hc : (_readChunkTraced dset r).calls = [r.request] := by
        simp [_readChunkTraced, hlt, Range.request]
      rcases ho : (_readChunkTraced dset r).outcome with e | chunk
      · refine ⟨[r.request], by simp [hc], ?_⟩
        rw [List.map_cons]
        exact ⟨rs.map Range.request, rfl⟩
      · obtain ⟨t, ht, hp⟩ := ih (emplaceAll result chunk) (calls ++ (_readChunkTraced dset r).calls)
        refine ⟨r.request :: t, ?_, ?_⟩
        · simp only
          rw [ht, hc]
          simp
        · rw [List.map_cons]
          exact List.prefix_cons_inj _ |>.2 hp
    · have ho : (_readChunkTraced dset r).outcome = .error .assertFailed := by
        simp [_readChunkTraced, hlt]
      have hc : (_readChunkTraced dset r).calls = [] := by
        simp [_readChunkTraced, hlt]
      rw [ho]
      exact ⟨[], by simp [hc], List.nil_prefix⟩

theorem readSelectionLoopTraced_calls {α : Type} (dset : DataSet α) (rs : List Range)
    (result : List α) (calls : List (Nat × Nat)) (hne : ∀ r ∈ rs, r.first < r.second)
    (hall : ∀ r ∈ rs, ∃ chunk, dset.read r.first (r.second - r.first) = .ok chunk) :
    (readSelectionLoopTraced dset rs result calls).calls = calls ++ rs.map Range.request := by
  induction rs generalizing result calls with
  | nil => simp [readSelectionLoopTraced]
  | cons r rs ih =>
    have hlt := hne r (List.mem_cons_self _ _)
    obtain ⟨chunk, hchunk⟩ := hall r (List.mem_cons_self _ _)
    have hc : (_readChunkTraced dset r).calls = [r.request] := by
      simp [_readChunkTraced, hlt, Range.request]
    have ho : (_readChunkTraced dset r).outcome = .ok chunk := by
      simp [_readChunkTraced, hlt, hchunk]
    unfold readSelectionLoopTraced
    rw [ho]
    simp only
    rw [ih _ _ (fun q hq => hne q (List.mem_cons_of_mem _ hq))
      (fun q hq => hall q (List.mem_cons_of_mem _ hq)), hc]
    simp

/-! ## Claims on `_selectionFromValues` -/

/-- C1 (as the code has it): Round trip of `_selectionFromValues`, with row
indices and range bounds as unsigned 64-bit integers. For every strictly
ascending sequence `S` of row indices all of which are below `2 ^ 64 - 1`,
expanding the ranges of the built selection in order, each range
`[first, second)` into `first, ..., second-1`, yields exactly `S`, and
`flatSize`, the sum of `second - first` over the ranges, equals the length
of `S`. -/
theorem selectionFromValues_roundtrip (S : List Nat) (hasc : S.Pairwise (· < ·))
    (hlt : ∀ s ∈ S, s < 2 ^ 64 - 1) :
    (_selectionFromValues64 S).indices = S ∧
    (_selectionFromValues64 S).ranges.flatMap
      (fun r => List.range' r.first (r.second - r.first)) = S ∧
    (_selectionFromValues64 S).flatSize = S.length ∧
    ((_selectionFromValues64 S).ranges.map (fun r => r.second - r.first)).sum = S.length := by
  have _ := hasc
  have hsize : uint64Size = 2 ^ 64 := rfl
  have heq : _selectionFromValues64 S = _selectionFromValues S :=
    selectionFromValues64_eq S (by rw [hsize]; exact hlt)
  have h := indices_selectionFromValues S
  have hl := (_selectionFromValues S).length_indices
  rw [h] at hl
  rw [heq]
  exact ⟨h, h, hl.symm, hl.symm⟩

theorem selectionFromValues_roundtrip_witness :
    ([1, 2, 4, 5, 7].Pairwise (· < ·) ∧
      (_selectionFromValues64 [1, 2, 4, 5, 7]).indices = [1, 2, 4, 5, 7] ∧
      (_selectionFromValues64 [1, 2, 4, 5, 7]).flatSize = [1, 2, 4, 5, 7].length) ∧
    ([0, 1, 2 ^ 64 - 3, 2 ^ 64 - 2].Pairwise (· < ·) ∧
      (_selectionFromValues64 [0, 1, 2 ^ 64 - 3, 2 ^ 64 - 2]).indices
        = [0, 1, 2 ^ 64 - 3, 2 ^ 64 - 2] ∧
      (_selectionFromValues64 [0, 1, 2 ^ 64 - 3, 2 ^ 64 - 2]).flatSize
        = [0, 1, 2 ^ 64 - 3, 2 ^ 64 - 2].length) :=
  ⟨⟨by decide, (selectionFromValues_roundtrip [1, 2, 4, 5, 7] (by decide) (by decide)).1,
      (selectionFromValues_roundtrip [1, 2, 4, 5, 7] (by decide) (by decide)).2.2.1⟩,
   ⟨by decide,
      (selectionFromValues_roundtrip [0, 1, 2 ^ 64 - 3, 2 ^ 64 - 2] (by decide) (by decide)).1,
      (selectionFromValues_roundtrip [0, 1, 2 ^ 64 - 3, 2 ^ 64 - 2] (by decide)
        (by decide)).2.2.1⟩⟩

/-- C1, the claim as stated fails: `[2 ^ 64 - 1]` is a strictly ascending
sequence of one 64-bit row index; `*it + 1` wraps to 0, the range
`[2 ^ 64 - 1, 0)` is not pushed, and the built selection has no range, so
its expansion is not `S` and its `flatSize` is 0, not 1. -/
theorem selectionFromValues64_roundtrip_top :
    [2 ^ 64 - 1].Pairwise (· < ·) ∧
    (_selectionFromValues64 [2 ^ 64 - 1]).indices = [] ∧
    (_selectionFromValues64 [2 ^ 64 - 1]).indices ≠ [2 ^ 64 - 1] ∧
    (_selectionFromValues64 [2 ^ 64 - 1]).flatSize = 0 ∧
    (_selectionFromValues64 [2 ^ 64 - 1]).flatSize ≠ [2 ^ 64 - 1].length := by
  decide

/-- C2: Canonical form of the output of `_selectionFromValues`. For every
strictly ascending sequence `S`, every range of the built selection has
`first < second`, the ranges are sorted ascending by `first`, no two of them
overlap, and they are maximally merged: for every pair of consecutive
ranges `ranges[i].second < ranges[i+1].first`, strictly. -/
theorem selectionFromValues_canonical (S : List Nat) (hasc : S.Pairwise (· < ·)) :
    (∀ r ∈ (_selectionFromValues S).ranges, r.first < r.second) ∧
    (_selectionFromValues S).ranges.Pairwise (fun a b => a.first < b.first) ∧
    (_selectionFromValues S).ranges.Pairwise (fun a b => a.second ≤ b.first) ∧
    (∀ (i : Nat) (h : i + 1 < (_selectionFromValues S).ranges.length),
      ((_selectionFromValues S).ranges[i]).second < ((_selectionFromValues S).ranges[i + 1]).first) := by
  obtain ⟨hne, hsep⟩ := selectionFromValues_separated S hasc
  refine ⟨hne, ?_, hsep.imp (fun h => Nat.le_of_lt h), ?_⟩
  · refine List.Pairwise.imp_of_mem ?_ hsep
    intro a b ha _ hab
    have := hne a ha
    omega
  · intro i h
    exact (List.pairwise_iff_getElem.1 hsep) i (i + 1) (by omega) h (Nat.lt_succ_self i)

theorem selectionFromValues_canonical_witness :
    [1, 2, 4, 5, 7].Pairwise (· < ·) ∧
    ((∀ r ∈ (_selectionFromValues [1, 2, 4, 5, 7]).ranges, r.first < r.second) ∧
    (_selectionFromValues [1, 2, 4, 5, 7]).ranges.Pairwise (fun a b => a.first < b.first) ∧
    (_selectionFromValues [1, 2, 4, 5, 7]).ranges.Pairwise (fun a b => a.second ≤ b.first) ∧
    (∀ (i : Nat) (h : i + 1 < (_selectionFromValues [1, 2, 4, 5, 7]).ranges.length),
      ((_selectionFromValues [1, 2, 4, 5, 7]).ranges[i]).second
        < ((_selectionFromValues [1, 2, 4, 5, 7]).ranges[i + 1]).first)) :=
  ⟨by decide, selectionFromValues_canonical [1, 2, 4, 5, 7] (by decide)⟩

/-! ## Claims on the chunked reader -/

/-- C4: Output length and order of the general `_readSelection`. For every
dataset and every selection (of zero, one or several ranges) whose ranges
are non-empty and lie within the dataset, on which the medium does not fail,
the read of each range by `_readChunk` gives the rows of the range in row
order, the result is the concatenation of these in range order, and its
length is `flatSize()`; this is so on the single-range path and on the
path that appends range by range. -/
theorem readSelection_length_order {α : Type} (dset : DataSet α) (s : Selection)
    (hne : s.nonEmptyRanges) (hin : s.within dset) (hf : dset.faultFree s) :
    (∀ r ∈ s.ranges,
      _readChunk dset r = .ok ((dset.data.drop r.first).take (r.second - r.first))) ∧
    (∃ v, _readSelection dset s = .ok v ∧
      v = (s.ranges.flatMap fun r => (dset.data.drop r.first).take (r.second - r.first)) ∧
      v.length = s.flatSize) ∧
    (∀ r, s.ranges = [r] → _readSelection dset s = _readChunk dset r) ∧
    (s.ranges.length ≠ 1 → _readSelection dset s = readSelectionLoop dset s.ranges []) := by
  have h : _readSelection dset s = .ok (dset.gather s) := by
    rw [readSelection_eq dset s hne, dset.firstFailure_of_faultFree s hne hin hf]
  refine ⟨?_, ⟨dset.gather s, h, rfl, dset.length_gather s hin⟩, ?_, ?_⟩
  · intro r hr
    unfold _readChunk
    rw [if_pos (hne r hr), dset.read_of_faultFree r (hne r hr) (hin r hr) (hf r hr)]
    rfl
  · intro r hr
    unfold _readSelection
    rw [hr]
  · intro hlen
    unfold _readSelection
    split
    · rename_i r hr
      rw [hr] at hlen
      exact absurd rfl hlen
    · rfl

theorem readSelection_length_order_witness :
    (∃ v, _readSelection { data := ["a", "b", "c", "d", "e", "f"], fault := fun _ _ => none }
        { ranges := [⟨0, 2⟩, ⟨3, 4⟩, ⟨5, 6⟩] } = .ok v ∧
      v = ["a", "b", "d", "f"] ∧ v.length = 4) ∧
    (∃ v, _readSelection { data := ["a", "b", "c", "d", "e", "f"], fault := fun _ _ => none }
        { ranges := [⟨2, 5⟩] } = .ok v ∧ v = ["c", "d", "e"] ∧ v.length = 3) ∧
    (∃ v, _readSelection { data := ["a", "b", "c", "d", "e", "f"], fault := fun _ _ => none }
        { ranges := [] } = .ok v ∧ v = [] ∧ v.length = 0) :=
  ⟨(readSelection_length_order
      { data := ["a", "b", "c", "d", "e", "f"], fault := fun _ _ => none }
      { ranges := [⟨0, 2⟩, ⟨3, 4⟩, ⟨5, 6⟩] } (by decide) (by decide) (by decide)).2.1,
   (readSelection_length_order
      { data := ["a", "b", "c", "d", "e", "f"], fault := fun _ _ => none }
      { ranges := [⟨2, 5⟩] } (by decide) (by decide) (by decide)).2.1,
   (readSelection_length_order
      { data := (["a", "b", "c", "d", "e", "f"] : List String), fault := fun _ _ => none }
      { ranges := [] } (by decide) (by decide) (by decide)).2.1⟩

/-- C5: A read failure is all or nothing, for both overloads of
`_readSelection`. If the positional read of some range of the selection
fails, neither overload returns a value sequence. On a selection without
empty ranges, the exception of the first range whose read fails is the
outcome of the whole operation, and if the read of every range succeeds the
operation succeeds. -/
theorem readSelection_all_or_nothing {α : Type} [Inhabited α] (dset : DataSet α)
    (s : Selection) :
    ((∃ r ∈ s.ranges, ∃ e, dset.read r.first (r.second - r.first) = .error e) →
      (∀ v, _readSelection dset s ≠ .ok v) ∧ (∀ v, _readSelectionPod dset s ≠ .ok v)) ∧
    (s.nonEmptyRanges → ∀ (pre : List Range) (r : Range) (post : List Range) (e : ReadError),
      s.ranges = pre ++ r :: post →
      (∀ q ∈ pre, ∃ chunk, dset.read q.first (q.second - q.first) = .ok chunk) →
      dset.read r.first (r.second - r.first) = .error e →
      _readSelection dset s = .error e ∧ _readSelectionPod dset s = .error e) ∧
    (s.nonEmptyRanges →
      (∀ r ∈ s.ranges, ∃ chunk, dset.read r.first (r.second - r.first) = .ok chunk) →
      (∃ v, _readSelection dset s = .ok v) ∧ (∃ v, _readSelectionPod dset s = .ok v)) := by
  refine ⟨?_, ?_, ?_⟩
  · rintro ⟨r, hr, e, he⟩
    have hsome : dset.firstFailure s.ranges ≠ none := by
      intro hnone
      obtain ⟨chunk, hc⟩ := (dset.firstFailure_eq_none s.ranges).1 hnone r hr
      rw [hc] at he
      cases he
    exact ⟨fun v hv => hsome (readSelection_ok dset s v hv),
      fun v hv => hsome (readSelectionPodLoop_ok dset _ _ v _ hv)⟩
  · intro hne pre r post e hs hpre hr
    have hff := dset.firstFailure_append pre r post e hpre hr
    rw [← hs] at hff
    rw [readSelection_eq dset s hne, readSelectionPod_eq dset s hne, hff]
    exact ⟨rfl, rfl⟩
  · intro hne hall
    have hff := (dset.firstFailure_eq_none s.ranges).2 hall
    rw [readSelection_eq dset s hne, readSelectionPod_eq dset s hne, hff]
    exact ⟨⟨_, rfl⟩, ⟨_, rfl⟩⟩

theorem readSelection_all_or_nothing_witness :
    ((∀ v, _readSelection
        { data := [10, 11, 12, 13, 14, 15, 16, 17],
          fault := fun offset _ => if offset = 3 then some 5 else none }
        { ranges := [⟨0, 2⟩, ⟨3, 5⟩, ⟨6, 7⟩] } ≠ .ok v) ∧
      (∀ v, _readSelectionPod
        { data := [10, 11, 12, 13, 14, 15, 16, 17],
          fault := fun offset _ => if offset = 3 then some 5 else none }
        { ranges := [⟨0, 2⟩, ⟨3, 5⟩, ⟨6, 7⟩] } ≠ .ok v)) ∧
    (_readSelection
        { data := [10, 11, 12, 13, 14, 15, 16, 17],
          fault := fun offset _ => if offset = 3 then some 5 else none }
        { ranges := [⟨0, 2⟩, ⟨3, 5⟩, ⟨6, 7⟩] } = .error (.ioFailure 5) ∧
      _readSelectionPod
        { data := [10, 11, 12, 13, 14, 15, 16, 17],
          fault := fun offset _ => if offset = 3 then some 5 else none }
        { ranges := [⟨0, 2⟩, ⟨3, 5⟩, ⟨6, 7⟩] } = .error (.ioFailure 5)) ∧
    ((∃ v, _readSelection
        { data := [10, 11, 12, 13, 14, 15, 16, 17],
          fault := fun offset _ => if offset = 3 then some 5 else none }
        { ranges := [⟨0, 2⟩, ⟨6, 7⟩] } = .ok v) ∧
      (∃ v, _readSelectionPod
        { data := [10, 11, 12, 13, 14, 15, 16, 17],
          fault := fun offset _ => if offset = 3 then some 5 else none }
        { ranges := [⟨0, 2⟩, ⟨6, 7⟩] } = .ok v)) :=
  ⟨(readSelection_all_or_nothing _ _).1 ⟨⟨3, 5⟩, by decide, .ioFailure 5, by decide⟩,
   (readSelection_all_or_nothing _ _).2.1 (by decide) [⟨0, 2⟩] ⟨3, 5⟩ [⟨6, 7⟩] (.ioFailure 5) rfl
     (fun q hq => by rw [List.mem_singleton.1 hq]; exact ⟨[10, 11], by decide⟩) (by decide),
   (readSelection_all_or_nothing _ _).2.2 (by decide)
     (fun q hq => by
        simp only [List.mem_cons, List.mem_singleton, List.not_mem_nil, or_false] at hq
        rcases hq with h | h
        · rw [h]; exact ⟨[10, 11], by decide⟩
        · rw [h]; exact ⟨[16], by decide⟩)⟩

/-! ## Claims on populations and storages -/

/-- C6 (as the code has it): Construction of `Population::Impl` on a file in
which the root group `/<prefix>s/<name>` exists succeeds only if the root
group has a child group named `0` and no child named `1`; for every root
group that has no child group named `0` or has a child named `1`,
construction fails and no population is produced. -/
theorem population_single_partition (fs : FileSystem)
    (h5FilePath csvFilePath name pfx : String) (h5File : File) (kindRoot h5Root : Group)
    (hfile : File.openFile fs h5FilePath = .ok h5File)
    (hkind : h5File.getGroup ("/" ++ pfx ++ "s") = .ok kindRoot)
    (hroot : kindRoot.getGroup name = .ok h5Root) :
    (∀ impl, Population.Impl.create fs h5FilePath csvFilePath name pfx = .ok impl →
      (∃ group0, h5Root.getGroup "0" = .ok group0) ∧ "0" ∈ h5Root.listObjectNames ∧
        "1" ∉ h5Root.listObjectNames) ∧
    (((∀ group0, h5Root.getGroup "0" ≠ .ok group0) ∨ "1" ∈ h5Root.listObjectNames) →
      ∃ e, Population.Impl.create fs h5FilePath csvFilePath name pfx = .error e) := by
  rw [Population.Impl.create_eq fs h5FilePath csvFilePath name pfx _ _ _ hfile hkind hroot]
  rcases h0 : h5Root.getGroup "0" with e | group0
  · exact ⟨fun impl h => (nomatch h), fun _ => ⟨e, rfl⟩⟩
  · have hex := (h5Root.exist_iff "0").1 (h5Root.exist_of_getGroup "0" group0 h0)
    by_cases h1 : h5Root.exist "1" = true
    · simp only [h1, if_true]
      exact ⟨fun impl h => (nomatch h), fun _ => ⟨_, rfl⟩⟩
    · simp only [h1]
      have hn1 : "1" ∉ h5Root.listObjectNames := fun hm => h1 ((h5Root.exist_iff "1").2 hm)
      refine ⟨fun impl _ => ⟨⟨group0, rfl⟩, hex, hn1⟩, ?_⟩
      rintro (hno | hm)
      · exact absurd rfl (hno group0)
      · exact absurd hm hn1

theorem population_single_partition_witness :
    (∀ impl, Population.Impl.create fixtureFS "nodes.h5" "" "default" "node" = .ok impl →
      (∃ group0, fixtureDefault.getGroup "0" = .ok group0) ∧
        "0" ∈ fixtureDefault.listObjectNames ∧ "1" ∉ fixtureDefault.listObjectNames) ∧
    (∃ e, Population.Impl.create fixtureFS "nodes.h5" "" "two" "node" = .error e) :=
  ⟨(population_single_partition fixtureFS "nodes.h5" "" "default" "node" fixtureFile
      fixtureNodes fixtureDefault rfl rfl rfl).1,
   (population_single_partition fixtureFS "nodes.h5" "" "two" "node" fixtureFile
      fixtureNodes fixtureTwo rfl rfl rfl).2 (Or.inr (by decide))⟩

/-- C6, the claim as stated fails: the root group of population `typed` has
the two children `0` and `node_type_id`, and construction succeeds. -/
theorem population_extra_child_accepted :
    fixtureTyped.listObjectNames = ["0", "node_type_id"] ∧
    ∃ impl, Population.Impl.create fixtureFS "nodes.h5" "" "typed" "node" = .ok impl ∧
      impl.h5Root.listObjectNames = ["0", "node_type_id"] := by
  refine ⟨rfl, ?_⟩
  rw [Population.Impl.create_eq fixtureFS "nodes.h5" "" "typed" "node" fixtureFile
    fixtureNodes fixtureTyped rfl rfl rfl]
  exact ⟨_, rfl, rfl⟩

/-- C7 (as the code has it): For every primary path and every non-empty
secondary path, construction of the storage fails and no storage object is
produced; when the primary file opens and has the root group of the entity
kind, the failure is the `SonataError` "CSV not supported at the moment";
when the file does not open, or lacks that group, it is the exception of the
file container. -/
theorem storage_rejects_csv (fs : FileSystem) (pfx h5FilePath csvFilePath : String)
    (hcsv : csvFilePath ≠ "") :
    (∀ st, PopulationStorage.Impl.create fs pfx h5FilePath csvFilePath ≠ .ok st) ∧
    (∀ h5File h5Root, File.openFile fs h5FilePath = .ok h5File →
      h5File.getGroup ("/" ++ pfx ++ "s") = .ok h5Root →
      PopulationStorage.Impl.create fs pfx h5FilePath csvFilePath
        = .error (.sonataError "CSV not supported at the moment")) ∧
    (fs h5FilePath = none →
      PopulationStorage.Impl.create fs pfx h5FilePath csvFilePath
        = .error (.fileException h5FilePath)) ∧
    (∀ h5File e, File.openFile fs h5FilePath = .ok h5File →
      h5File.getGroup ("/" ++ pfx ++ "s") = .error e →
      PopulationStorage.Impl.create fs pfx h5FilePath csvFilePath
        = .error (.groupException ("/" ++ pfx ++ "s"))) := by
  refine ⟨?_, ?_, ?_, ?_⟩
  · intro st h
    exact hcsv (PopulationStorage.Impl.create_ok fs pfx h5FilePath csvFilePath st h).2.2.1
  · intro h5File h5Root hf hg
    simp [PopulationStorage.Impl.create, hf, hg, bind, Except.bind, hcsv, throw, throwThe,
      MonadExceptOf.throw]
  · intro hnone
    simp [PopulationStorage.Impl.create, File.openFile, hnone, bind, Except.bind]
  · intro h5File e hf hg
    have he := File.getGroup_groupException _ _ _ hg
    rw [he] at hg
    simp [PopulationStorage.Impl.create, hf, hg, bind, Except.bind]

theorem storage_rejects_csv_witness :
    (∀ st, PopulationStorage.Impl.create fixtureFS "node" "nodes.h5" "legacy.csv" ≠ .ok st) ∧
    PopulationStorage.Impl.create fixtureFS "node" "nodes.h5" "legacy.csv"
      = .error (.sonataError "CSV not supported at the moment") :=
  ⟨(storage_rejects_csv fixtureFS "node" "nodes.h5" "legacy.csv" (by decide)).1,
   (storage_rejects_csv fixtureFS "node" "nodes.h5" "legacy.csv" (by decide)).2.1
     fixtureFile fixtureNodes rfl rfl⟩

/-- C7, the claim as stated fails: with a primary file that cannot be opened
and the secondary path `legacy.csv`, construction fails with the exception
of the file container, not with the `SonataError` on CSV. -/
theorem storage_csv_unopened_file :
    PopulationStorage.Impl.create fixtureFS "node" "missing.h5" "legacy.csv"
      = .error (.fileException "missing.h5") ∧
    PopulationStorage.Impl.create fixtureFS "node" "missing.h5" "legacy.csv"
      ≠ .error (.sonataError "CSV not supported at the moment") := by
  have h : PopulationStorage.Impl.create fixtureFS "node" "missing.h5" "legacy.csv"
      = .error (.fileException "missing.h5") := rfl
  refine ⟨h, ?_⟩
  rw [h]
  intro hc
  cases hc

/-- C8: For every successfully constructed storage and every name,
`openPopulation(name)` fails with the `SonataError` whose message is
`No such population: '<name>'` if and only if `name` is not a member of
`populationNames()`, which is the set of the names of the links of the root
group of the storage; when `name` is a member, the outcome is that of the
construction of the population, never this error. -/
theorem openPopulation_not_found (fs : FileSystem) (pfx h5FilePath csvFilePath : String)
    (st : PopulationStorage.Impl)
    (hst : PopulationStorage.Impl.create fs pfx h5FilePath csvFilePath = .ok st)
    (name : String) :
    (st.openPopulation fs pfx name = .error (.sonataError ("No such population: '" ++ name ++ "'"))
      ↔ name ∉ st.populationNames) ∧
    (∀ n, n ∈ st.populationNames ↔ n ∈ st.h5Root.listObjectNames) ∧
    (name ∈ st.populationNames →
      st.openPopulation fs pfx name = Population.create fs pfx h5FilePath csvFilePath name) := by
  obtain ⟨hp, hc, _, _, _⟩ := PopulationStorage.Impl.create_ok fs pfx h5FilePath csvFilePath st hst
  have hnames : ∀ n, n ∈ st.populationNames ↔ n ∈ st.h5Root.listObjectNames := by
    intro n
    unfold PopulationStorage.Impl.populationNames
    rw [foldl_insert_eq]
    simp
  refine ⟨?_, hnames, ?_⟩
  · rw [hnames]
    unfold PopulationStorage.Impl.openPopulation
    by_cases hex : st.h5Root.exist name = true
    · have hmem := (st.h5Root.exist_iff name).1 hex
      simp only [hex, not_true_eq_false, if_false, hmem, not_true_eq_false, iff_false]
      intro herr
      unfold Population.create at herr
      rcases hcr : Population.Impl.create fs st.h5FilePath st.csvFilePath name pfx with e | impl
      · rw [hcr] at herr
        simp only [bind, Except.bind] at herr
        injection herr with herr
        rw [herr] at hcr
        exact notFound_ne_singleGroup name
          (Population.Impl.create_sonataError _ _ _ _ _ _ hcr)
      · rw [hcr] at herr
        simp [bind, Except.bind, pure, Except.pure] at herr
    · have hmem : name ∉ st.h5Root.listObjectNames :=
        fun hm => hex ((st.h5Root.exist_iff name).2 hm)
      simp [hex, hmem]
  · intro hmem
    have hex := (st.h5Root.exist_iff name).2 ((hnames name).1 hmem)
    unfold PopulationStorage.Impl.openPopulation
    simp [hex, hp, hc]

theorem openPopulation_not_found_witness :
    ∃ st, PopulationStorage.Impl.create fixtureFS "node" "nodes.h5" "" = .ok st ∧
      (st.openPopulation fixtureFS "node" "missing"
          = .error (.sonataError ("No such population: '" ++ "missing" ++ "'"))
        ↔ "missing" ∉ st.populationNames) ∧
      "missing" ∉ st.h5Root.listObjectNames :=
  ⟨{ h5FilePath := "nodes.h5", csvFilePath := "", h5File := fixtureFile, h5Root := fixtureNodes },
    rfl,
    (openPopulation_not_found fixtureFS "node" "nodes.h5" ""
      { h5FilePath := "nodes.h5", csvFilePath := "", h5File := fixtureFile,
        h5Root := fixtureNodes } rfl "missing").1,
    by decide⟩

/-- C9: Cached schema of an opened population. For every file in which the
root group of the population has exactly the one child `0`, a partition with
the entries `entries`, construction of the population succeeds, also through
`openPopulation(name)` of a storage on the same file, and `attributeNames`
is exactly the set of the names of the entries directly under partition `0`:
every such name is in it and no other. -/
theorem population_attributeNames (fs : FileSystem)
    (h5FilePath csvFilePath name pfx : String) (h5File : File) (kindRoot h5Root : Group)
    (entries : List (String × H5Object))
    (hfile : File.openFile fs h5FilePath = .ok h5File)
    (hkind : h5File.getGroup ("/" ++ pfx ++ "s") = .ok kindRoot)
    (hroot : kindRoot.getGroup name = .ok h5Root)
    (hone : h5Root.links = [("0", .group entries)]) :
    ∃ impl, Population.Impl.create fs h5FilePath csvFilePath name pfx = .ok impl ∧
      impl.attributeNames = (entries.map Prod.fst).toFinset ∧
      (∀ n, n ∈ impl.attributeNames ↔ ∃ entry ∈ entries, entry.1 = n) ∧
      impl.name = name ∧ impl.h5Root = h5Root ∧
      (∀ st, PopulationStorage.Impl.create fs pfx h5FilePath csvFilePath = .ok st →
        st.openPopulation fs pfx name = .ok { impl_ := impl }) := by
  have h0 : h5Root.getGroup "0" = .ok { links := entries } := by
    unfold Group.getGroup
    rw [hone]
    rfl
  have h1 : h5Root.exist "1" = false := by
    unfold Group.exist Group.listObjectNames
    rw [hone]
    rfl
  have hcreate := Population.Impl.create_eq fs h5FilePath csvFilePath name pfx _ _ _
    hfile hkind hroot
  rw [h0] at hcreate
  simp only [h1, Bool.false_eq_true, if_false] at hcreate
  refine ⟨_, hcreate, rfl, ?_, rfl, rfl, ?_⟩
  · intro n
    simp [Group.listObjectNames]
  · intro st hst
    obtain ⟨hp, hc, _, hf', hg'⟩ :=
      PopulationStorage.Impl.create_ok fs pfx h5FilePath csvFilePath st hst
    rw [hfile] at hf'
    injection hf' with hf'
    rw [← hf', hkind] at hg'
    injection hg' with hg'
    have hex : st.h5Root.exist name = true := by
      rw [← hg']
      exact kindRoot.exist_of_getGroup name h5Root hroot
    unfold PopulationStorage.Impl.openPopulation Population.create
    rw [hp, hc]
    simp [hex, hcreate, bind, Except.bind, pure, Except.pure]

theorem population_attributeNames_witness :
    ∃ impl, Population.Impl.create fixtureFS "nodes.h5" "" "default" "node" = .ok impl ∧
      impl.attributeNames = (["x", "y", "z"] : List String).toFinset ∧
      (∀ n, n ∈ impl.attributeNames ↔ n = "x" ∨ n = "y" ∨ n = "z") := by
  obtain ⟨impl, h1, h2, _⟩ := population_attributeNames fixtureFS "nodes.h5" "" "default" "node"
    fixtureFile fixtureNodes fixtureDefault
    [("x", .dataset), ("y", .dataset), ("z", .dataset)] rfl rfl rfl rfl
  refine ⟨impl, h1, h2, ?_⟩
  intro n
  rw [h2]
  simp

/-- C10: Two partitions are rejected with the structural error. For every
root group of a population that contains the partition `0` and a child named
`1`, with any further children, construction of the population fails with
the `SonataError` "Only single-group populations are supported at the
moment". -/
theorem population_two_partitions (fs : FileSystem)
    (h5FilePath csvFilePath name pfx : String) (h5File : File) (kindRoot h5Root group0 : Group)
    (hfile : File.openFile fs h5FilePath = .ok h5File)
    (hkind : h5File.getGroup ("/" ++ pfx ++ "s") = .ok kindRoot)
    (hroot : kindRoot.getGroup name = .ok h5Root)
    (h0 : h5Root.getGroup "0" = .ok group0)
    (h1 : "1" ∈ h5Root.listObjectNames) :
    Population.Impl.create fs h5FilePath csvFilePath name pfx
      = .error (.sonataError "Only single-group populations are supported at the moment") := by
  rw [Population.Impl.create_eq fs h5FilePath csvFilePath name pfx _ _ _ hfile hkind hroot, h0]
  simp [(h5Root.exist_iff "1").2 h1]

theorem population_two_partitions_witness :
    "1" ∈ fixtureTwo.listObjectNames ∧
    Population.Impl.create fixtureFS "nodes.h5" "" "two" "node"
      = .error (.sonataError "Only single-group populations are supported at the moment") :=
  ⟨by decide, population_two_partitions fixtureFS "nodes.h5" "" "two" "node" fixtureFile
    fixtureNodes fixtureTwo { links := [("x", .dataset)] } rfl rfl rfl rfl (by decide)⟩

/-! ## Further claims on populations -/

/-- C11: A missing partition `0`. On the population `only_one`, whose root
group has the one child `1`, the loop of the constructor body would leave
`groupID = 0`, which the body reports with the `SonataError`; but the
constructor fails before its body, in the initialiser of `attributeNames`,
with the `GroupException` of `getGroup("0")`. The same on the root group
without children. -/
theorem population_missing_partition_zero :
    groupCount fixtureOnlyOne = 0 ∧
    Population.Impl.create fixtureEdgesFS "edges.h5" "" "only_one" "edge"
      = .error (.groupException "0") ∧
    Population.Impl.create fixtureEdgesFS "edges.h5" "" "only_one" "edge"
      ≠ .error (.sonataError "Only single-group populations are supported at the moment") ∧
    Population.Impl.create fixtureEdgesFS "edges.h5" "" "empty" "edge"
      = .error (.groupException "0") := by
  have h : Population.Impl.create fixtureEdgesFS "edges.h5" "" "only_one" "edge"
      = .error (.groupException "0") := rfl
  refine ⟨by decide, h, ?_, rfl⟩
  rw [h]
  intro hc
  cases hc

/-- C17: Exact acceptance condition of the population constructor. Given
that the file opens and the group `/<prefix>s/<name>` exists, construction
succeeds if and only if the root group has a child group named `0` and has
no child named `1`; no other child is examined: two root groups with the
same link `0` and the same answer for `1` are both accepted or both
rejected. -/
theorem population_accepts_iff (fs : FileSystem)
    (h5FilePath csvFilePath name pfx : String) (h5File : File) (kindRoot h5Root : Group)
    (hfile : File.openFile fs h5FilePath = .ok h5File)
    (hkind : h5File.getGroup ("/" ++ pfx ++ "s") = .ok kindRoot)
    (hroot : kindRoot.getGroup name = .ok h5Root) :
    ((∃ impl, Population.Impl.create fs h5FilePath csvFilePath name pfx = .ok impl) ↔
      ((∃ group0, h5Root.getGroup "0" = .ok group0) ∧ "1" ∉ h5Root.listObjectNames)) ∧
    (∀ (fs' : FileSystem) (path' csv' name' : String) (file' : File) (kind' root' : Group),
      File.openFile fs' path' = .ok file' →
      file'.getGroup ("/" ++ pfx ++ "s") = .ok kind' →
      kind'.getGroup name' = .ok root' →
      root'.links.lookup "0" = h5Root.links.lookup "0" →
      ("1" ∈ root'.listObjectNames ↔ "1" ∈ h5Root.listObjectNames) →
      ((∃ impl, Population.Impl.create fs' path' csv' name' pfx = .ok impl) ↔
        ∃ impl, Population.Impl.create fs h5FilePath csvFilePath name pfx = .ok impl)) := by
  have key : ∀ (fs : FileSystem) (h5FilePath csvFilePath name : String) (h5File : File)
      (kindRoot h5Root : Group), File.openFile fs h5FilePath = .ok h5File →
      h5File.getGroup ("/" ++ pfx ++ "s") = .ok kindRoot →
      kindRoot.getGroup name = .ok h5Root →
      ((∃ impl, Population.Impl.create fs h5FilePath csvFilePath name pfx = .ok impl) ↔
        ((∃ group0, h5Root.getGroup "0" = .ok group0) ∧ "1" ∉ h5Root.listObjectNames)) := by
    intro fs h5FilePath csvFilePath name h5File kindRoot h5Root hfile hkind hroot
    rw [Population.Impl.create_eq fs h5FilePath csvFilePath name pfx _ _ _ hfile hkind hroot]
    rcases h0 : h5Root.getGroup "0" with e | group0
    · constructor
      · rintro ⟨impl, h⟩
        cases h
      · rintro ⟨⟨g, hg⟩, _⟩
        cases hg
    · by_cases h1 : h5Root.exist "1" = true
      · have hm := (h5Root.exist_iff "1").1 h1
        simp only [h1, if_true]
        constructor
        · rintro ⟨impl, h⟩
          cases h
        · rintro ⟨_, hn⟩
          exact absurd hm hn
      · have hn : "1" ∉ h5Root.listObjectNames := fun hm => h1 ((h5Root.exist_iff "1").2 hm)
        simp only [h1]
        exact ⟨fun _ => ⟨⟨group0, rfl⟩, hn⟩, fun _ => ⟨_, rfl⟩⟩
  refine ⟨key fs h5FilePath csvFilePath name h5File kindRoot h5Root hfile hkind hroot, ?_⟩
  intro fs' path' csv' name' file' kind' root' hf' hk' hr' hl h1
  rw [key fs' path' csv' name' file' kind' root' hf' hk' hr',
    key fs h5FilePath csvFilePath name h5File kindRoot h5Root hfile hkind hroot, h1]
  unfold Group.getGroup
  rw [hl]

theorem population_accepts_iff_witness :
    fixtureGap.listObjectNames = ["0", "2"] ∧
    ∃ impl, Population.Impl.create fixtureEdgesFS "edges.h5" "" "gap" "edge" = .ok impl :=
  ⟨rfl, ((population_accepts_iff fixtureEdgesFS "edges.h5" "" "gap" "edge" fixtureEdgesFile
    fixtureEdges fixtureGap rfl rfl rfl).1).2 ⟨⟨_, rfl⟩, by decide⟩⟩

/-! ## Further claims on `_selectionFromValues` -/

/-- C14 (as the code has it): Contiguous input collapses to one range, with
row indices and range bounds as unsigned 64-bit integers. For every start
index `a`, zero included, and every length `m ≥ 1` with `a + m ≤ 2 ^ 64 - 1`,
so that every index is below `2 ^ 64 - 1`, the selection built from
`a, a+1, ..., a+m-1` has exactly the one range `[a, a+m)`; in particular the
selection built from `[k]` is `[k, k+1)` for every `k` below `2 ^ 64 - 1`,
from `[5]` it is `[5, 6)` and from `[1,2,3,4,5]` it is `[1, 6)`. -/
theorem selectionFromValues_contiguous (a m : Nat) (hm : 1 ≤ m) (hb : a + m ≤ 2 ^ 64 - 1) :
    (_selectionFromValues64 (List.range' a m)).ranges = [{ first := a, second := a + m }] ∧
    (_selectionFromValues64 (List.range' 0 m)).ranges = [{ first := 0, second := m }] ∧
    (_selectionFromValues64 [a]).ranges = [{ first := a, second := a + 1 }] ∧
    (_selectionFromValues64 [5]).ranges = [{ first := 5, second := 6 }] ∧
    (_selectionFromValues64 [1, 2, 3, 4, 5]).ranges = [{ first := 1, second := 6 }] := by
  have hsize : uint64Size = 2 ^ 64 := rfl
  obtain ⟨k, rfl⟩ : ∃ k, m = k + 1 := ⟨m - 1, by omega⟩
  have hrange : ∀ b n : Nat, b + n ≤ 2 ^ 64 - 1 →
      _selectionFromValues64 (List.range' b n) = _selectionFromValues (List.range' b n) := by
    intro b n hbn
    refine selectionFromValues64_eq _ ?_
    intro s hs
    rw [List.mem_range'_1] at hs
    rw [hsize]
    omega
  refine ⟨?_, ?_, ?_, by decide, by decide⟩
  · rw [hrange a (k + 1) hb]
    exact selectionFromValues_consecutive a k
  · rw [hrange 0 (k + 1) (by omega)]
    have h := selectionFromValues_consecutive 0 k
    rw [Nat.zero_add] at h
    exact h
  · have h := hrange a 1 (by omega)
    have h' := selectionFromValues_consecutive a 0
    rw [← h] at h'
    exact h'

theorem selectionFromValues_contiguous_witness :
    (_selectionFromValues64 [7, 8, 9, 10]).ranges = [{ first := 7, second := 11 }] ∧
    (_selectionFromValues64 [0, 1, 2]).ranges = [{ first := 0, second := 3 }] ∧
    (_selectionFromValues64 [2 ^ 64 - 3, 2 ^ 64 - 2]).ranges
      = [{ first := 2 ^ 64 - 3, second := 2 ^ 64 - 1 }] :=
  ⟨(selectionFromValues_contiguous 7 4 (by decide) (by decide)).1,
   (selectionFromValues_contiguous 0 3 (by decide) (by decide)).1,
   (selectionFromValues_contiguous (2 ^ 64 - 3) 2 (by decide) (by decide)).1⟩

/-- C14, the claim as stated fails: for `k = 2 ^ 64 - 1` the selection built
from `[k]` has no range, and the contiguous input
`[2 ^ 64 - 2, 2 ^ 64 - 1]`, of start `2 ^ 64 - 2` and length 2, does not give
one range either: `++range.second` wraps to 0 and the open range
`[2 ^ 64 - 2, 0)` is not pushed. -/
theorem selectionFromValues64_contiguous_top :
    (_selectionFromValues64 [2 ^ 64 - 1]).ranges.length = 0 ∧
    (_selectionFromValues64 (List.range' (2 ^ 64 - 2) 2)).ranges = [] ∧
    (buildLoop64 (List.range' (2 ^ 64 - 2) 2)).range
      = { first := 2 ^ 64 - 2, second := 0 } ∧
    (_selectionFromValues64 (List.range' (2 ^ 64 - 2) 2)).ranges
      ≠ [{ first := 2 ^ 64 - 2, second := 2 ^ 64 - 2 + 2 }] := by
  decide

/-- C15: Worked examples of `_selectionFromValues`. The selection built from
the empty sequence has zero ranges and `flatSize` 0, and the selection built
from `[1,2,4,5,7]` has exactly the three ranges `[1,3)`, `[4,6)`, `[7,8)`, in
that order. -/
theorem selectionFromValues_examples :
    (_selectionFromValues []).ranges = [] ∧
    (_selectionFromValues []).ranges.length = 0 ∧
    (_selectionFromValues []).flatSize = 0 ∧
    (_selectionFromValues [1, 2, 4, 5, 7]).ranges
      = [{ first := 1, second := 3 }, { first := 4, second := 6 }, { first := 7, second := 8 }] := by
  decide

/-- C18: The function `_selectionFromValues` loses nothing even without its
precondition. For every finite sequence `S` of indices, in any order and
with duplicates allowed, over the naturals, expanding the ranges of the
built selection in output order reproduces `S` element for element, and
`flatSize` equals the length of `S`. The sorted, non-overlapping and
maximally merged form does depend on `S` being strictly ascending: `[3, 1]`
gives ranges that are not sorted, `[1, 1]` ranges that overlap, `[2, 1]`
ranges that are adjacent. -/
theorem selectionFromValues_lossless (S : List Nat) :
    (_selectionFromValues S).indices = S ∧
    (_selectionFromValues S).flatSize = S.length ∧
    (_selectionFromValues [3, 1]).ranges
      = [{ first := 3, second := 4 }, { first := 1, second := 2 }] ∧
    (_selectionFromValues [1, 1]).ranges
      = [{ first := 1, second := 2 }, { first := 1, second := 2 }] ∧
    (_selectionFromValues [2, 1]).ranges
      = [{ first := 2, second := 3 }, { first := 1, second := 2 }] := by
  have h := indices_selectionFromValues S
  have hl := (_selectionFromValues S).length_indices
  rw [h] at hl
  exact ⟨h, hl.symm, by decide, by decide, by decide⟩

/-- C19: The assertions of the readers hold for built selections. For every
input sequence `S`, without any ordering precondition, every range stored in
the built selection has `first < second`, so that `chunkSize = second - first`
is at least 1 and does not underflow, and neither `_readChunk` on a range of
the built selection nor either overload of `_readSelection` on the built
selection ends in the failed assertion. The stored ranges are non-empty also
when the bounds are computed modulo `2 ^ 64`. -/
theorem selectionFromValues_asserts_hold {α : Type} [Inhabited α] (S : List Nat)
    (dset : DataSet α) :
    (∀ r ∈ (_selectionFromValues S).ranges,
      r.first < r.second ∧ 1 ≤ r.second - r.first ∧ r.first + (r.second - r.first) = r.second) ∧
    (∀ r ∈ (_selectionFromValues S).ranges, _readChunk dset r ≠ .error .assertFailed) ∧
    _readSelection dset (_selectionFromValues S) ≠ .error .assertFailed ∧
    _readSelectionPod dset (_selectionFromValues S) ≠ .error .assertFailed ∧
    (∀ r ∈ (_selectionFromValues64 S).ranges, r.first < r.second) := by
  have hne := selectionFromValues_nonEmpty S
  refine ⟨?_, ?_, ?_, ?_, selectionFromValues64_nonEmpty S⟩
  · intro r hr
    have := hne r hr
    omega
  · intro r hr
    unfold _readChunk
    rw [if_pos (hne r hr)]
    exact dset.read_ne_assertFailed _ _
  · rw [readSelection_eq dset _ hne]
    exact outcome_ne_assertFailed dset _ _
  · rw [readSelectionPod_eq dset _ hne]
    exact outcome_ne_assertFailed dset _ _

/-! ## Further claims on the chunked reader -/

/-- C16: The two read strategies are observationally equal. For every
dataset, an array with a positional read that may fail, and every selection
with non-empty ranges, the POD overload and the general overload of
`_readSelection` have the same outcome: the same value sequence when the
read of every range succeeds, and an exception in both, the same one, when
the read of some range fails. -/
theorem readSelection_overloads_agree {α : Type} [Inhabited α] (dset : DataSet α)
    (s : Selection) (hne : s.nonEmptyRanges) :
    _readSelectionPod dset s = _readSelection dset s ∧
    ((∀ r ∈ s.ranges, ∃ chunk, dset.read r.first (r.second - r.first) = .ok chunk) →
      ∃ v, _readSelection dset s = .ok v ∧ _readSelectionPod dset s = .ok v) ∧
    ((∃ r ∈ s.ranges, ∃ e, dset.read r.first (r.second - r.first) = .error e) →
      ∃ e, _readSelection dset s = .error e ∧ _readSelectionPod dset s = .error e) := by
  have hg := readSelection_eq dset s hne
  have hp := readSelectionPod_eq dset s hne
  refine ⟨hp.trans hg.symm, ?_, ?_⟩
  · intro hall
    have hff := (dset.firstFailure_eq_none s.ranges).2 hall
    rw [hff] at hg hp
    exact ⟨_, hg, hp⟩
  · rintro ⟨r, hr, e, he⟩
    rcases hff : dset.firstFailure s.ranges with _ | e'
    · obtain ⟨chunk, hc⟩ := (dset.firstFailure_eq_none s.ranges).1 hff r hr
      rw [hc] at he
      cases he
    · rw [hff] at hg hp
      exact ⟨e', hg, hp⟩

theorem readSelection_overloads_agree_witness :
    _readSelectionPod { data := [10, 11, 12, 13, 14, 15], fault := fun _ _ => none }
        { ranges := [⟨1, 3⟩, ⟨4, 5⟩] }
      = _readSelection { data := [10, 11, 12, 13, 14, 15], fault := fun _ _ => none }
        { ranges := [⟨1, 3⟩, ⟨4, 5⟩] } ∧
    _readSelection { data := [10, 11, 12, 13, 14, 15], fault := fun _ _ => none }
        { ranges := [⟨1, 3⟩, ⟨4, 5⟩] } = .ok [11, 12, 14] ∧
    (∃ e, _readSelection { data := [10, 11, 12, 13, 14, 15], fault := fun _ _ => none }
        { ranges := [⟨1, 3⟩, ⟨4, 9⟩] } = .error e ∧
      _readSelectionPod { data := [10, 11, 12, 13, 14, 15], fault := fun _ _ => none }
        { ranges := [⟨1, 3⟩, ⟨4, 9⟩] } = .error e) :=
  ⟨(readSelection_overloads_agree _ _ (by decide)).1, by decide,
   (readSelection_overloads_agree _ _ (by decide)).2.2
     ⟨⟨4, 9⟩, by decide, .outOfBounds, by decide⟩⟩

/-! ## Claims on minimality, read calls and index width -/

/-- C12: Minimality of the ranges of `_selectionFromValues`. For every
strictly ascending sequence `S` and every list `R` of non-empty half-open
ranges whose expansion covers exactly the indices of `S`, the built
selection has at most as many ranges as `R`; in particular it never has more
ranges than `S` has indices. -/
theorem selectionFromValues_minimal (S : List Nat) (hasc : S.Pairwise (· < ·))
    (R : List Range) (hR : ∀ r ∈ R, r.first < r.second)
    (hcover : ∀ i, i ∈ Selection.indices { ranges := R } ↔ i ∈ S) :
    (_selectionFromValues S).ranges.length ≤ R.length ∧
    (_selectionFromValues S).ranges.length ≤ S.length := by
  have _ := hR
  refine ⟨selectionFromValues_length_le S hasc R hcover, ?_⟩
  have h := length_le_sum_sizes _ (selectionFromValues_nonEmpty S)
  have hl := (_selectionFromValues S).length_indices
  rw [indices_selectionFromValues] at hl
  unfold Selection.flatSize at hl
  omega

theorem selectionFromValues_minimal_witness :
    (_selectionFromValues [1, 2, 4, 5, 7]).ranges.length
      ≤ [(⟨4, 6⟩ : Range), ⟨1, 2⟩, ⟨7, 8⟩, ⟨2, 3⟩, ⟨4, 5⟩].length ∧
    (_selectionFromValues [1, 2, 4, 5, 7]).ranges.length ≤ [1, 2, 4, 5, 7].length :=
  selectionFromValues_minimal [1, 2, 4, 5, 7] (by decide)
    [⟨4, 6⟩, ⟨1, 2⟩, ⟨7, 8⟩, ⟨2, 3⟩, ⟨4, 5⟩] (by decide)
    (fun i => by
      simp only [Selection.mem_indices]
      constructor
      · rintro ⟨r, hr, h1, h2⟩
        simp only [List.mem_cons, List.mem_singleton, List.not_mem_nil, or_false] at hr
        rcases hr with rfl | rfl | rfl | rfl | rfl <;> simp only at h1 h2 <;>
          simp only [List.mem_cons, List.mem_singleton, List.not_mem_nil, or_false] <;> omega
      · intro hi
        simp only [List.mem_cons, List.mem_singleton, List.not_mem_nil, or_false] at hi
        rcases hi with rfl | rfl | rfl | rfl | rfl
        · exact ⟨⟨1, 2⟩, by decide, by decide, by decide⟩
        · exact ⟨⟨2, 3⟩, by decide, by decide, by decide⟩
        · exact ⟨⟨4, 6⟩, by decide, by decide, by decide⟩
        · exact ⟨⟨4, 6⟩, by decide, by decide, by decide⟩
        · exact ⟨⟨7, 8⟩, by decide, by decide, by decide⟩)

/-- C13: Number of underlying reads of the general `_readSelection`, each
`dset.select(...).read(...)` counted as one call. The calls issued are
always an initial part of the requests of the ranges, in range order. For
every selection with exactly one range, non-empty, exactly one read call is
issued. For every selection, in particular one with `N > 1` ranges, on which
the operation returns its result, exactly one call per range has been
issued, in range order, `N` in all, and the concatenated result has length
`flatSize()`; the operation does return a result when no range is empty and
the read of every range succeeds. -/
theorem readSelection_read_calls {α : Type} (dset : DataSet α) (s : Selection) :
    (_readSelectionTraced dset s).outcome = _readSelection dset s ∧
    (_readSelectionTraced dset s).calls <+: s.ranges.map Range.request ∧
    (∀ r, s.ranges = [r] → r.first < r.second →
      (_readSelectionTraced dset s).calls = [(r.first, r.second - r.first)] ∧
      (_readSelectionTraced dset s).calls.length = 1) ∧
    (∀ v, _readSelection dset s = .ok v →
      (_readSelectionTraced dset s).calls
        = s.ranges.map (fun r => (r.first, r.second - r.first)) ∧
      (_readSelectionTraced dset s).calls.length = s.ranges.length ∧
      v.length = s.flatSize) ∧
    (s.nonEmptyRanges →
      (∀ r ∈ s.ranges, ∃ chunk, dset.read r.first (r.second - r.first) = .ok chunk) →
      ∃ v, _readSelection dset s = .ok v) := by
  refine ⟨?_, ?_, ?_, ?_, ?_⟩
  · unfold _readSelectionTraced _readSelection
    split
    · exact readChunkTraced_outcome dset _
    · exact readSelectionLoopTraced_outcome dset _ _ _
  · unfold _readSelectionTraced
    split
    · rename_i r hr
      rw [hr]
      by_cases hlt : r.first < r.second
      · simp [_readChunkTraced, hlt, Range.request]
      · simp [_readChunkTraced, hlt]
    · obtain ⟨t, ht, hp⟩ := readSelectionLoopTraced_calls_prefix dset s.ranges [] []
      rw [ht]
      simpa using hp
  · intro r hr hlt
    unfold _readSelectionTraced
    rw [hr]
    simp [_readChunkTraced, hlt]
  · intro v hv
    have hne : s.nonEmptyRanges := readSelection_ok_nonEmpty dset s v hv
    have hall := (dset.firstFailure_eq_none s.ranges).1 (readSelection_ok dset s v hv)
    have hcalls : (_readSelectionTraced dset s).calls = s.ranges.map Range.request := by
      unfold _readSelectionTraced
      split
      · rename_i r hr
        have hlt : r.first < r.second := hne r (by rw [hr]; exact List.mem_singleton.2 rfl)
        rw [hr]
        simp [_readChunkTraced, hlt, Range.request]
      · have h := readSelectionLoopTraced_calls dset s.ranges [] [] hne hall
        simpa using h
    have hin : s.within dset := by
      intro r hr
      obtain ⟨chunk, hc⟩ := hall r hr
      have := (dset.read_ok _ _ _ hc).2
      have := hne r hr
      omega
    refine ⟨hcalls, ?_, ?_⟩
    · rw [hcalls, List.length_map]
    · rw [readSelection_eq dset s hne, (dset.firstFailure_eq_none s.ranges).2 hall] at hv
      injection hv with hv
      rw [← hv]
      exact dset.length_gather s hin
  · intro hne hall
    rw [readSelection_eq dset s hne, (dset.firstFailure_eq_none s.ranges).2 hall]
    exact ⟨_, rfl⟩

theorem readSelection_read_calls_witness :
    ((_readSelectionTraced { data := ["a", "b", "c", "d", "e", "f"], fault := fun _ _ => none }
        { ranges := [⟨2, 5⟩] }).calls = [(2, 3)] ∧
      (_readSelectionTraced { data := ["a", "b", "c", "d", "e", "f"], fault := fun _ _ => none }
        { ranges := [⟨2, 5⟩] }).calls.length = 1) ∧
    ((_readSelectionTraced { data := ["a", "b", "c", "d", "e", "f"], fault := fun _ _ => none }
        { ranges := [⟨0, 2⟩, ⟨3, 4⟩, ⟨5, 6⟩] }).calls = [(0, 2), (3, 1), (5, 1)] ∧
      (_readSelectionTraced { data := ["a", "b", "c", "d", "e", "f"], fault := fun _ _ => none }
        { ranges := [⟨0, 2⟩, ⟨3, 4⟩, ⟨5, 6⟩] }).calls.length = 3 ∧
      ["a", "b", "d", "f"].length
        = Selection.flatSize { ranges := [⟨0, 2⟩, ⟨3, 4⟩, ⟨5, 6⟩] }) :=
  ⟨(readSelection_read_calls
      { data := ["a", "b", "c", "d", "e", "f"], fault := fun _ _ => none }
      { ranges := [⟨2, 5⟩] }).2.2.1 ⟨2, 5⟩ rfl (by decide),
   (readSelection_read_calls
      { data := ["a", "b", "c", "d", "e", "f"], fault := fun _ _ => none }
      { ranges := [⟨0, 2⟩, ⟨3, 4⟩, ⟨5, 6⟩] }).2.2.2.1 ["a", "b", "d", "f"] (by decide)⟩

/-- C20: No wrap-around in `_selectionFromValues` below the top index. With
row indices and range bounds taken as unsigned 64-bit integers and
arithmetic modulo `2 ^ 64`, for every sequence `S`, in particular every
strictly ascending one, all of whose elements are below `2 ^ 64 - 1`,
neither `++range.second` nor `*it + 1` wraps at any step, the state of the
loop after every initial part of `S` is the one computed over the naturals,
and the built selection equals the one computed over the naturals. The
bound is tight: for `S = [2 ^ 64 - 1]` the open range after the loop is
`[2 ^ 64 - 1, 0)`, which fails `first < second` and is dropped, giving zero
ranges, where the naturals give the one range `[2 ^ 64 - 1, 2 ^ 64)`. -/
theorem selectionFromValues64_no_wrap (S : List Nat) (hlt : ∀ s ∈ S, s < 2 ^ 64 - 1) :
    _selectionFromValues64 S = _selectionFromValues S ∧
    (∀ (P : List Nat) (x : Nat) (Q : List Nat), S = P ++ x :: Q →
      buildLoop64 P = buildLoop P ∧ x + 1 < 2 ^ 64 ∧
      (x = (buildLoop64 P).range.second → (buildLoop64 P).range.second + 1 < 2 ^ 64) ∧
      buildLoop64 (P ++ [x]) = buildLoop (P ++ [x])) ∧
    (buildLoop64 [2 ^ 64 - 1]).range = { first := 2 ^ 64 - 1, second := 0 } ∧
    (_selectionFromValues64 [2 ^ 64 - 1]).ranges = [] ∧
    (_selectionFromValues [2 ^ 64 - 1]).ranges = [{ first := 2 ^ 64 - 1, second := 2 ^ 64 }] := by
  have hsize : uint64Size = 2 ^ 64 := rfl
  have hlt' : ∀ s ∈ S, s < uint64Size - 1 := by rw [hsize]; exact hlt
  refine ⟨?_, ?_, by decide, by decide, by decide⟩
  · unfold _selectionFromValues64 _selectionFromValues buildLoop64
    rw [BuildState.foldl_step64_eq S _ hlt']
  · intro P x Q hS
    have hP : ∀ p ∈ P, p < uint64Size - 1 := by
      intro p hp
      exact hlt' p (by rw [hS]; exact List.mem_append_left _ hp)
    have hx : x < 2 ^ 64 - 1 := hlt x (by rw [hS]; simp)
    have hPx : ∀ p ∈ P ++ [x], p < uint64Size - 1 := by
      intro p hp
      exact hlt' p (by
        rw [hS]
        rcases List.mem_append.1 hp with h | h
        · exact List.mem_append_left _ h
        · rw [List.mem_singleton.1 h]; simp)
    refine ⟨BuildState.foldl_step64_eq P _ hP, by omega, ?_, BuildState.foldl_step64_eq _ _ hPx⟩
    intro he
    rw [← he]
    omega

theorem selectionFromValues64_no_wrap_witness :
    _selectionFromValues64 [2 ^ 64 - 4, 2 ^ 64 - 3, 2 ^ 64 - 2]
      = _selectionFromValues [2 ^ 64 - 4, 2 ^ 64 - 3, 2 ^ 64 - 2] ∧
    (_selectionFromValues64 [2 ^ 64 - 4, 2 ^ 64 - 3, 2 ^ 64 - 2]).ranges
      = [{ first := 2 ^ 64 - 4, second := 2 ^ 64 - 1 }] :=
  ⟨(selectionFromValues64_no_wrap [2 ^ 64 - 4, 2 ^ 64 - 3, 2 ^ 64 - 2] (by decide)).1,
   by decide⟩

end Sonata
